import Mathlib

/-!
# Local finite elements: Lagrange cache, P1 and edge bases, Raviart-Thomas test

A shallow embedding of

* `dune/localfunctions/lagrange/lagrangelfecache.hh`
  (`ImplementedLagrangeFiniteElements`, `UniqueTypesHelper`, `UniqueTypes_t`,
  `LagrangeFiniteElementCache`),
* `dune/finiteelements/p1/p1localbasis.hh` (`P1LocalBasis`),
* `dune/localfunctions/edger02d/edger02dlocalbasis.hh` (`EdgeR02DLocalBasis`),
* `dune/localfunctions/refinedp0.hh` (`RefinedP0LocalFiniteElement`),
* `dune/localfunctions/test/test-raviartthomassimplex.cc` (`test`, `main`).

Field values are exact rationals.  Indexing a `std::vector` or a `FieldVector`
outside its bounds is undefined in the source; the embedding makes every such
access explicit and fallible.
-/

set_option autoImplicit false

namespace Dune

/-! ## Geometry types -/

/-- Modelled from the spec: a geometry type is "a runtime-representable tag identifying a
reference-element shape and its dimension".  The header `dune/geometry/type.hh` that the
cache includes is not among the sources; the three fields are the ones its accessors
`id()`, `dim()` and `isNone()` return. -/
structure GeometryType where
  topologyId : Nat
  dim : Nat
  none : Bool
  deriving DecidableEq, Repr

namespace GeometryType

/-- The accessor `GeometryType::id()`. -/
def id (gt : GeometryType) : Nat := gt.topologyId

/-- The accessor `GeometryType::isNone()`. -/
def isNone (gt : GeometryType) : Bool := gt.none

/-- Modelled from the spec: equality of geometry types (`operator==` of the absent header
`dune/geometry/type.hh`): two tags name the same shape when both are the `none` type, or
neither is, the dimensions agree and the topology ids agree up to their lowest bit. -/
def same (a b : GeometryType) : Bool :=
  (a.none == b.none) &&
    (a.none || ((a.dim == b.dim) && ((a.topologyId >>> 1) == (b.topologyId >>> 1))))

/-- A geometry type of dimension `d` that names a reference element: either the `none`
type, or a topology id below `2 ^ d`. -/
def WellFormed (gt : GeometryType) : Prop :=
  gt.none = true ∨ gt.topologyId < 2 ^ gt.dim

instance (gt : GeometryType) : Decidable gt.WellFormed := by
  unfold WellFormed; exact inferInstance

end GeometryType

/-! The named constructors of `namespace GeometryTypes` in the absent header
`dune/geometry/type.hh`. -/
namespace GeometryTypes

/-- Modelled from the spec: `GeometryTypes::simplex(dim)` of the absent header
`dune/geometry/type.hh`, the simplex shape of the glossary: topology id `0`. -/
def simplex (dim : Nat) : GeometryType := ⟨0, dim, false⟩

/-- Modelled from the spec: `GeometryTypes::cube(dim)` of the absent header
`dune/geometry/type.hh`, the cube shape of the glossary: topology id
`(dim > 1) ? ((1 << dim) - 1) : 0`. -/
def cube (dim : Nat) : GeometryType := ⟨if dim > 1 then (1 <<< dim) - 1 else 0, dim, false⟩

/-- Modelled from the spec: `GeometryTypes::none(dim)` of the absent header
`dune/geometry/type.hh`, the tag for "no reference element" in dimension `dim`. -/
def none (dim : Nat) : GeometryType := ⟨0, dim, true⟩

/-- The constant `GeometryTypes::line`. -/
def line : GeometryType := ⟨0, 1, false⟩

/-- The constant `GeometryTypes::triangle`. -/
def triangle : GeometryType := simplex 2

/-- The constant `GeometryTypes::quadrilateral`. -/
def quadrilateral : GeometryType := cube 2

/-- The constant `GeometryTypes::tetrahedron`. -/
def tetrahedron : GeometryType := simplex 3

/-- The constant `GeometryTypes::pyramid`, topology id `0b0011`. -/
def pyramid : GeometryType := ⟨3, 3, false⟩

/-- The constant `GeometryTypes::prism`, topology id `0b0101`. -/
def prism : GeometryType := ⟨5, 3, false⟩

/-- The constant `GeometryTypes::hexahedron`. -/
def hexahedron : GeometryType := cube 3

end GeometryTypes

/-! The slot numbering of `dune/geometry/typeindex.hh`. -/
namespace LocalGeometryTypeIndex

/-- Modelled from the spec: the number of regular (non-`none`) slots of a dimension, from
the absent header `dune/geometry/typeindex.hh`: `(1 << dim) - ((1 << dim) >> 1)`. -/
def regular_size (dim : Nat) : Nat := (1 <<< dim) - ((1 <<< dim) >>> 1)

/-- Modelled from the spec: `LocalGeometryTypeIndex::size(dim)` of the absent header
`dune/geometry/typeindex.hh`, the length of "a dense array indexed by a geometry-type index
function": the regular slots and one more for the `none` type. -/
def size (dim : Nat) : Nat := regular_size dim + 1

/-- Modelled from the spec: `LocalGeometryTypeIndex::index(gt)` of the absent header
`dune/geometry/typeindex.hh`, the "dense integer index derived from geometry type and
dimension": `gt.isNone() ? regular_size(gt.dim()) : (gt.id() >> 1)`. -/
def index (gt : GeometryType) : Nat :=
  if gt.isNone then regular_size gt.dim else gt.id >>> 1

end LocalGeometryTypeIndex

/-! ## Implementations and the registry -/

/-- The concrete implementation types a registry constructor can return (the template
arguments `D` and `R` are the same throughout one cache and are left out). -/
inductive LFEType where
  | P0 (dim : Nat)
  | Pk (dim order : Nat)
  | Qk (dim order : Nat)
  | PrismP1
  | PrismP2
  | PyramidP1
  | PyramidP2
  deriving DecidableEq, Repr

/-- A constructed implementation object.  `P0LocalFiniteElement` is constructed from a
geometry type; every other implementation is default-constructed. -/
inductive LocalFiniteElement where
  | P0 (dim : Nat) (gt : GeometryType)
  | Pk (dim order : Nat)
  | Qk (dim order : Nat)
  | PrismP1
  | PrismP2
  | PyramidP1
  | PyramidP2
  deriving DecidableEq, Repr

/-- The implementation type of a constructed object (`decltype` of the constructor call). -/
def LocalFiniteElement.implType : LocalFiniteElement → LFEType
  | .P0 dim _ => .P0 dim
  | .Pk dim order => .Pk dim order
  | .Qk dim order => .Qk dim order
  | .PrismP1 => .PrismP1
  | .PrismP2 => .PrismP2
  | .PyramidP1 => .PyramidP1
  | .PyramidP2 => .PyramidP2

/-- A registry entry: `std::make_pair(geometry type, constructor lambda)`. -/
abbrev RegistryPair := GeometryType × (Unit → LocalFiniteElement)

/-- Embeds `Impl::ImplementedLagrangeFiniteElements<D,R,dim,order>::get()`.  The three
specialisations for dimension 3 and the one for order 0 take precedence over the primary
template. -/
def ImplementedLagrangeFiniteElements (dim order : Nat) : List RegistryPair :=
  match dim, order with
  | 3, 0 =>
    [ (GeometryTypes.tetrahedron, fun _ => .P0 3 GeometryTypes.tetrahedron),
      (GeometryTypes.hexahedron, fun _ => .P0 3 GeometryTypes.hexahedron),
      (GeometryTypes.prism, fun _ => .P0 3 GeometryTypes.prism),
      (GeometryTypes.pyramid, fun _ => .P0 3 GeometryTypes.pyramid) ]
  | 3, 1 =>
    [ (GeometryTypes.tetrahedron, fun _ => .Pk 3 1),
      (GeometryTypes.hexahedron, fun _ => .Qk 3 1),
      (GeometryTypes.prism, fun _ => .PrismP1),
      (GeometryTypes.pyramid, fun _ => .PyramidP1) ]
  | 3, 2 =>
    [ (GeometryTypes.tetrahedron, fun _ => .Pk 3 2),
      (GeometryTypes.hexahedron, fun _ => .Qk 3 2),
      (GeometryTypes.prism, fun _ => .PrismP2),
      (GeometryTypes.pyramid, fun _ => .PyramidP2) ]
  | dim, 0 =>
    [ (GeometryTypes.simplex dim, fun _ => .P0 dim (GeometryTypes.simplex dim)),
      (GeometryTypes.cube dim, fun _ => .P0 dim (GeometryTypes.cube dim)),
      (GeometryTypes.none dim, fun _ => .P0 dim (GeometryTypes.none dim)) ]
  | dim, order =>
    [ (GeometryTypes.simplex dim, fun _ => .Pk dim order),
      (GeometryTypes.cube dim, fun _ => .Qk dim order) ]

/-! ## Removing duplicate types -/

namespace Impl

/-- Embeds `Impl::UniqueTypesHelper<Target, TypeList<T...>, Processed...>::type`, as the list of
template arguments handed to `Target`.  An empty to-do list yields `Processed...`; otherwise
the head `T0` is dropped when it is the same as one of `Processed...` and is put in front of
`Processed...` when it is not. -/
def UniqueTypesHelper {α : Type} [DecidableEq α] : List α → List α → List α
  | [], processed => processed
  | t0 :: t, processed =>
    if processed.any (fun p => decide (t0 = p)) then UniqueTypesHelper t processed
    else UniqueTypesHelper t (t0 :: processed)

/-- Embeds `Impl::UniqueTypes_t<Target, T...>`: the helper started with nothing processed. -/
def UniqueTypes_t {α : Type} [DecidableEq α] (ts : List α) : List α :=
  UniqueTypesHelper ts []

end Impl

/-! ## The cache -/

/-- The two ways a lookup can fail: the exception `Dune::NotImplemented` thrown by `get`,
and an access to `cache_` at an index that is not below its length (undefined in the
source). -/
inductive CacheError where
  | NotImplemented
  | OutOfRange
  deriving DecidableEq, Repr

/-- Embeds `LagrangeFiniteElementCache<D,R,dim,order>`: the member `cache_`. -/
structure LagrangeFiniteElementCache (dim order : Nat) where
  cache_ : List (Option LocalFiniteElement)
  deriving DecidableEq, Repr

namespace LagrangeFiniteElementCache

/-- Embeds `GenerateLFEVariant<...>::type`, the alternatives of `FiniteElementType`:
`UniqueTypes_t` applied to the return types of the registry constructors. -/
def FiniteElementType (dim order : Nat) : List LFEType :=
  Impl.UniqueTypes_t ((ImplementedLagrangeFiniteElements dim order).map
    (fun feImpl => (feImpl.2 ()).implType))

/-- The body of the `Hybrid::forEach` in the constructor, run over the registry in order:
`cache_[LocalGeometryTypeIndex::index(feImpl.first)].emplace(feImpl.second())`. -/
def emplaceAll : List RegistryPair → List (Option LocalFiniteElement) →
    Option (List (Option LocalFiniteElement))
  | [], cache_ => some cache_
  | feImpl :: rest, cache_ =>
    if LocalGeometryTypeIndex.index feImpl.1 < cache_.length then
      emplaceAll rest (cache_.set (LocalGeometryTypeIndex.index feImpl.1) (some (feImpl.2 ())))
    else none

/-- The content of one slot after the `emplace` calls of the pairs `reg`, in order, on a
slot that held `cur`: every pair whose geometry type has slot index `k` replaces the
content. -/
def slotAfter : List RegistryPair → Nat → Option LocalFiniteElement → Option LocalFiniteElement
  | [], _, cur => cur
  | feImpl :: rest, k, cur =>
    slotAfter rest k (if LocalGeometryTypeIndex.index feImpl.1 = k then some (feImpl.2 ()) else cur)

/-- The constructor `LagrangeFiniteElementCache()`: `cache_.resize(size(dim))` on the empty
vector, then one `emplace` per registry pair. -/
def new (dim order : Nat) : Option (LagrangeFiniteElementCache dim order) :=
  (emplaceAll (ImplementedLagrangeFiniteElements dim order)
    (List.replicate (LocalGeometryTypeIndex.size dim) Option.none)).map (fun c => ⟨c⟩)

/-- The member function `get(gt)`. -/
def get {dim order : Nat} (self : LagrangeFiniteElementCache dim order) (gt : GeometryType) :
    Except CacheError LocalFiniteElement :=
  match self.cache_[LocalGeometryTypeIndex.index gt]? with
  | Option.none => .error .OutOfRange
  | some Option.none => .error .NotImplemented
  | some (some fe) => .ok fe

end LagrangeFiniteElementCache

/-! ## Field vectors and vectors of them -/

/-- Embeds `FieldVector<K,n>`: a vector of `n` components of type `K`. -/
abbrev FieldVector (K : Type) (n : Nat) := Fin n → K

namespace FieldVector

variable {K : Type} {n : Nat}

/-- Embeds `v = k`: assigning a scalar sets every component of the vector to it. -/
def assign (_v : FieldVector K n) (k : K) : FieldVector K n := fun _ => k

/-- Embeds `v -= k`: subtracting a scalar subtracts it from every component. -/
def subScalar [Sub K] (v : FieldVector K n) (k : K) : FieldVector K n := fun c => v c - k

/-- Reading `v[i]`; there is no component `i` when `i` is not below `n`. -/
def read (v : FieldVector K n) (i : Nat) : Option K :=
  if h : i < n then some (v ⟨i, h⟩) else none

/-- The statement `v[i] = x`; there is no component `i` when `i` is not below `n`. -/
def write (v : FieldVector K n) (i : Nat) (x : K) : Option (FieldVector K n) :=
  if h : i < n then some (Function.update v ⟨i, h⟩ x) else none

/-- A statement that changes `v[i]` in place by `f`. -/
def modify (v : FieldVector K n) (i : Nat) (f : K → Option K) : Option (FieldVector K n) :=
  if h : i < n then (f (v ⟨i, h⟩)).map (fun x => Function.update v ⟨i, h⟩ x) else none

end FieldVector

namespace StdVector

variable {α : Type}

/-- Embeds `v.resize(n)` of `std::vector`: the first `n` elements are kept, and missing ones are
appended; `fill` is the value of an appended, default-constructed element. -/
def resize (v : List α) (n : Nat) (fill : α) : List α :=
  v.take n ++ List.replicate (n - v.length) fill

/-- A statement that changes `v[i]` in place by `f`; there is no element `i` when `i` is
not below the length. -/
def modify (v : List α) (i : Nat) (f : α → Option α) : Option (List α) :=
  match v[i]? with
  | none => none
  | some a => (f a).map (fun b => v.set i b)

end StdVector

/-- The loop `for (i = 0; i < n; i++) body`, on a state `σ`; it stops with `none` as soon as
one pass of the body does. -/
def forLoop {σ : Type} (n : Nat) (body : Nat → σ → Option σ) (s : σ) : Option σ :=
  match n with
  | 0 => some s
  | k + 1 => (forLoop k body s).bind (body k)

/-! ## Linear shape functions on the simplex -/

namespace P1LocalBasis

/-- Embeds `Traits::DomainType`, `FieldVector<D,dim>`. -/
abbrev DomainType (dim : Nat) := FieldVector ℚ dim

/-- Embeds `Traits::RangeType`, `FieldVector<R,1>`. -/
abbrev RangeType := FieldVector ℚ 1

/-- Embeds `Traits::JacobianType`, `FieldVector<FieldVector<R,dim>,1>`. -/
abbrev JacobianType (dim : Nat) := FieldVector (FieldVector ℚ dim) 1

/-- Embeds `P1LocalBasis::size()`. -/
def size (dim : Nat) : Nat := dim + 1

/-- Embeds `P1LocalBasis::evaluateFunction(in, out)`; the result is `out` after the call,
and `fill` is what a default-constructed entry appended by `resize` holds. -/
def evaluateFunction (dim : Nat) (inp : DomainType dim) (out : List RangeType)
    (fill : RangeType) : Option (List RangeType) := do
  let out := StdVector.resize out (size dim) fill
  let out ← StdVector.modify out 0 (fun v => some (v.assign 1))
  forLoop dim (fun i out => do
    let x ← inp.read i
    let out ← StdVector.modify out 0 (fun v => some (v.subScalar x))
    let y ← inp.read i
    StdVector.modify out (i + 1) (fun v => some (v.assign y))) out

/-- Embeds `P1LocalBasis::evaluateJacobian(in, out)`; the result is `out` after the call,
and `fill` is what a default-constructed entry appended by `resize` holds. -/
def evaluateJacobian (dim : Nat) (_inp : DomainType dim) (out : List (JacobianType dim))
    (fill : JacobianType dim) : Option (List (JacobianType dim)) := do
  let out := StdVector.resize out (size dim) fill
  let out ← forLoop dim (fun i out =>
    StdVector.modify out 0 (fun J => J.modify 0 (fun row => row.write i (-1)))) out
  forLoop dim (fun i out =>
    forLoop dim (fun j out =>
      StdVector.modify out (i + 1) (fun J => J.modify 0 (fun row =>
        row.write j (if i = j then 1 else 0)))) out) out

/-- Embeds `P1LocalBasis::order()`. -/
def order : Nat := 1

end P1LocalBasis

/-! ## Lowest order edge shape functions on the reference rectangle -/

namespace EdgeR02DLocalBasis

/-- Embeds `Traits::DomainType`, `FieldVector<D,2>`. -/
abbrev DomainType := FieldVector ℚ 2

/-- Embeds `Traits::RangeType`, `FieldVector<R,3>`. -/
abbrev RangeType := FieldVector ℚ 3

/-- Embeds `Traits::JacobianType`, `FieldVector<FieldVector<R,2>,1>`. -/
abbrev JacobianType := FieldVector (FieldVector ℚ 2) 1

/-- Embeds `EdgeR02DLocalBasis::size()`. -/
def size : Nat := 4

/-- Embeds `EdgeR02DLocalBasis::evaluateFunction(in, out)`; the result is `out` after the
call, and `fill` is what a default-constructed entry appended by `resize` holds. -/
def evaluateFunction (inp : DomainType) (out : List RangeType) (fill : RangeType) :
    Option (List RangeType) := do
  let out := StdVector.resize out 4 fill
  let out ← StdVector.modify out 0 (fun v => some (v.assign 0))
  let a ← inp.read 1
  let out ← StdVector.modify out 0 (fun v => v.write 0 (1 - a))
  let out ← StdVector.modify out 1 (fun v => some (v.assign 0))
  let b ← inp.read 1
  let out ← StdVector.modify out 1 (fun v => v.write 0 b)
  let out ← StdVector.modify out 2 (fun v => some (v.assign 0))
  let c ← inp.read 0
  let out ← StdVector.modify out 2 (fun v => v.write 1 (1 - c))
  let out ← StdVector.modify out 3 (fun v => some (v.assign 0))
  let d ← inp.read 0
  StdVector.modify out 3 (fun v => v.write 1 d)

/-- Embeds `EdgeR02DLocalBasis::evaluateJacobian(in, out)`; the result is `out` after the call.
The statement `out[k] = 0` assigns the scalar to every entry of the Jacobian. -/
def evaluateJacobian (_inp : DomainType) (out : List JacobianType) (fill : JacobianType) :
    Option (List JacobianType) := do
  let out := StdVector.resize out 4 fill
  let out ← StdVector.modify out 0 (fun J => some (J.assign (fun _ => 0)))
  let out ← StdVector.modify out 0 (fun J => J.modify 0 (fun row => row.write 1 (-1)))
  let out ← StdVector.modify out 1 (fun J => some (J.assign (fun _ => 0)))
  let out ← StdVector.modify out 1 (fun J => J.modify 0 (fun row => row.write 1 1))
  let out ← StdVector.modify out 2 (fun J => some (J.assign (fun _ => 0)))
  let out ← StdVector.modify out 2 (fun J => J.modify 1 (fun row => row.write 0 (-1)))
  let out ← StdVector.modify out 3 (fun J => some (J.assign (fun _ => 0)))
  StdVector.modify out 3 (fun J => J.modify 1 (fun row => row.write 0 1))

/-- Embeds `EdgeR02DLocalBasis::order()`. -/
def order : Nat := 1

end EdgeR02DLocalBasis

namespace P1LocalBasis

/-- Corner `j` of the reference simplex of dimension `dim`: corner 0 is the origin and
corner `j`, for `1 ≤ j ≤ dim`, is the unit vector along coordinate `j - 1`. -/
def vertex (dim : Nat) (j : Fin (dim + 1)) : DomainType dim :=
  fun c => if c.val + 1 = j.val then 1 else 0

end P1LocalBasis

/-! ## The test of the Raviart-Thomas simplex elements -/

namespace RaviartThomasTest

/-- Modelled from the spec: `Dune::LFEMatrix<StorageField>`, whose header under
`dune/localfunctions/utility` is not among the sources: "an (#functionals × #basis) matrix
in the storage field", with `rows()`, `cols()` and the entries `matrix(i,j)`. -/
structure LFEMatrix where
  rows : Nat
  cols : Nat
  entry : Nat → Nat → ℚ

/-- Reading `matrix(i,j)`; there is no such entry outside the `rows × cols` range. -/
def LFEMatrix.read (m : LFEMatrix) (i j : Nat) : Option ℚ :=
  if i < m.rows ∧ j < m.cols then some (m.entry i j) else none

/-- The statement `matrix(i,j) -= x`. -/
def LFEMatrix.sub (m : LFEMatrix) (i j : Nat) (x : ℚ) : Option LFEMatrix :=
  if i < m.rows ∧ j < m.cols then
    some { m with entry := fun a b => if a = i ∧ b = j then m.entry a b - x else m.entry a b }
  else none

/-- What the test writes to `std::cout`, one value per line. -/
inductive Line where
  | testing (o : Nat)
  | nonZeroEntry (i j : Nat) (value : ℚ)
  | failed
  deriving DecidableEq

/-- The variables of `test`: the flag `ret` and the lines written so far. -/
structure TestState where
  ret : Bool
  cout : List Line

/-- One pass of the loop over `o` in `test<Topology>`.  `interpolate o` is the matrix that
`interpol.interpolate(basis,matrix)` fills for the basis and the interpolation created for
order `o`; the factories that compute it are not among the sources. -/
def testOrder (interpolate : Nat → LFEMatrix) (o : Nat) (st : TestState) :
    Option TestState := do
  let st := { st with cout := st.cout ++ [Line.testing o] }
  let matrix := interpolate o
  let matrix ← forLoop matrix.rows (fun i matrix => matrix.sub i i 1) matrix
  forLoop matrix.rows (fun i st =>
    forLoop matrix.cols (fun j st => do
      let v ← matrix.read i j
      if v < 0 ∨ 0 < v then
        some { st with cout := st.cout ++ [Line.nonZeroEntry i j v] }
      else some st) st) st

/-- Embeds `test<Topology>(order)`: the returned flag and the lines written. -/
def test (interpolate : Nat → LFEMatrix) (order : Nat) : Option (Bool × List Line) := do
  let st : TestState := ⟨true, []⟩
  let st ← forLoop (order + 1) (testOrder interpolate) st
  let st := if !st.ret then { st with cout := st.cout ++ [Line.failed] } else st
  some (st.ret, st.cout)

/-- Embeds `main` without `TOPOLOGY`: `p` is the command-line argument if there is one (the order
is `(argc < 2) ? 5 : atoi(argv[1])`), and `interpolate d` gives the matrices of the simplex
topology of dimension `d`.  The result is the exit status. -/
def main (p : Option Nat) (interpolate : Nat → Nat → LFEMatrix) : Option Nat := do
  let order := p.getD 5
  let tests := true
  let t1 ← test (interpolate 1) order
  let tests := tests && t1.1
  let t2 ← test (interpolate 2) order
  let tests := tests && t2.1
  let t3 ← test (interpolate 3) order
  let tests := tests && t3.1
  let t4 ← test (interpolate 4) order
  let tests := tests && t4.1
  some (if tests then 0 else 1)

/-- Embeds `main` with `TOPOLOGY` set: `return (test<TOPOLOGY>(order) ? 0 : 1)`. -/
def mainTopology (p : Option Nat) (interpolate : Nat → LFEMatrix) : Option Nat := do
  let order := p.getD 5
  let t ← test interpolate order
  some (if t.1 then 0 else 1)

end RaviartThomasTest

/-! ## The piecewise constant element on the refined triangle -/

/-- Modelled from the spec: `GeometryType::makeTriangle()` of the absent header
`dune/common/geometrytype.hh`: the geometry type becomes the triangle, "a runtime-representable
tag identifying a reference-element shape and its dimension". -/
def GeometryType.makeTriangle (_gt : GeometryType) : GeometryType := GeometryTypes.triangle

/-- The exception `Dune::NotImplemented` raised by `DUNE_THROW`. -/
inductive Exception where
  | NotImplemented
  deriving DecidableEq, Repr

/-- Modelled from the spec: `RefinedP0LocalBasis<D,R,2>`, whose header `refinedp0/refinedp0localbasis.hh`
is not among the sources; the element holds one default-constructed object of it. -/
structure RefinedP0LocalBasis where
  deriving DecidableEq, Repr

/-- Modelled from the spec: `RefinedP0LocalCoefficients<2>`, whose header
`refinedp0/refinedp0localcoefficients.hh` is not among the sources; the element holds one
default-constructed object of it. -/
structure RefinedP0LocalCoefficients where
  deriving DecidableEq, Repr

/-- Modelled from the spec: `RefinedP0LocalInterpolation<...>`, whose header
`refinedp0/refinedp0localinterpolation.hh` is not among the sources; the element holds one
default-constructed object of it. -/
structure RefinedP0LocalInterpolation where
  deriving DecidableEq, Repr

/-- The members of the specialisation `RefinedP0LocalFiniteElement<D,R,2>`. -/
structure RefinedP0LocalFiniteElement where
  basis_ : RefinedP0LocalBasis
  coefficients_ : RefinedP0LocalCoefficients
  interpolation_ : RefinedP0LocalInterpolation
  gt : GeometryType
  deriving DecidableEq, Repr

namespace RefinedP0LocalFiniteElement

/-- The constructor `RefinedP0LocalFiniteElement<D,R,dim>()`, for the template argument
`int dim`: the specialisation for `dim = 2` default-constructs the members and runs
`gt.makeTriangle()`; the primary template, used for every other `dim`, throws. -/
def new (dim : Int) : Except Exception RefinedP0LocalFiniteElement :=
  if dim = 2 then
    .ok { basis_ := {}, coefficients_ := {}, interpolation_ := {},
          gt := (GeometryTypes.none 0).makeTriangle }
  else .error .NotImplemented

/-- The member function `type()` of the specialisation for `dim = 2`. -/
def type (self : RefinedP0LocalFiniteElement) : GeometryType := self.gt

end RefinedP0LocalFiniteElement

/-! ## The component writes of the edge shape functions -/

namespace EdgeR02DLocalBasis

/-- The component writes of `evaluateFunction` in source order: `(k, c, x)` stands for the
pair of statements `out[k] = 0; out[k][c] = x`. -/
def functionWrites (inp : DomainType) : List (Nat × Nat × ℚ) :=
  [(0, 0, 1 - inp 1), (1, 0, inp 1), (2, 1, 1 - inp 0), (3, 1, inp 0)]

/-- The entry writes of `evaluateJacobian` in source order: `(k, r, c, x)` stands for the
pair of statements `out[k] = 0; out[k][r][c] = x`. -/
def jacobianWrites : List (Nat × Nat × Nat × ℚ) :=
  [(0, 0, 1, -1), (1, 0, 1, 1), (2, 1, 0, -1), (3, 1, 0, 1)]

/-- Runs the statements `out[k] = 0; out[k][c] = x` of a list of component writes. -/
def runFunctionWrites : List (Nat × Nat × ℚ) → List RangeType → Option (List RangeType)
  | [], out => some out
  | (k, c, x) :: rest, out => do
    let out ← StdVector.modify out k (fun v => some (v.assign 0))
    let out ← StdVector.modify out k (fun v => v.write c x)
    runFunctionWrites rest out

/-- Runs the statements `out[k] = 0; out[k][r][c] = x` of a list of entry writes, on
Jacobians of the type `FieldVector<FieldVector<R,2>,rows>`. -/
def runJacobianWrites (rows : Nat) : List (Nat × Nat × Nat × ℚ) →
    List (FieldVector (FieldVector ℚ 2) rows) → Option (List (FieldVector (FieldVector ℚ 2) rows))
  | [], out => some out
  | (k, r, c, x) :: rest, out => do
    let out ← StdVector.modify out k (fun J => some (J.assign (fun _ => 0)))
    let out ← StdVector.modify out k (fun J => J.modify r (fun row => row.write c x))
    runJacobianWrites rows rest out

/-- The body of `evaluateJacobian` on Jacobians with `rows` rows,
`FieldVector<FieldVector<R,2>,rows>`; the `Traits` of the source declare `rows = 1`. -/
def evaluateJacobianRows (rows : Nat) (_inp : DomainType)
    (out : List (FieldVector (FieldVector ℚ 2) rows)) (fill : FieldVector (FieldVector ℚ 2) rows) :
    Option (List (FieldVector (FieldVector ℚ 2) rows)) :=
  runJacobianWrites rows jacobianWrites (StdVector.resize out 4 fill)

/-- A point of the edge `k` of the reference square, at the parameter `t`: the edges 0 and 1
are `y = 0` and `y = 1`, the edges 2 and 3 are `x = 0` and `x = 1`. -/
def edgePoint (k : Fin 4) (t : ℚ) : DomainType :=
  match k with
  | 0 => ![t, 0]
  | 1 => ![t, 1]
  | 2 => ![0, t]
  | 3 => ![1, t]

/-- The range component along the edge `k` of the reference square: the edges 0 and 1 run
along `x`, the edges 2 and 3 along `y`. -/
def tangentComponent (k : Fin 4) : Fin 3 :=
  match k with
  | 0 => 0
  | 1 => 0
  | 2 => 1
  | 3 => 1

end EdgeR02DLocalBasis

/-! ## First occurrences -/

namespace Impl

/-- The distinct entries of a list in the order of their first occurrence. -/
def firstOccurrences {α : Type} [DecidableEq α] : List α → List α
  | [] => []
  | t :: ts => t :: (firstOccurrences ts).filter (fun u => decide (u ≠ t))

end Impl

end Dune

/-! ## Facts about the slot numbering -/

namespace Dune

open LocalGeometryTypeIndex in
theorem regular_size_zero : regular_size 0 = 1 := by
  simp [regular_size]

open LocalGeometryTypeIndex in
theorem regular_size_succ (d : Nat) : regular_size (d + 1) = 2 ^ d := by
  simp only [regular_size, Nat.one_shiftLeft, Nat.shiftRight_eq_div_pow, pow_one]
  have h : 2 ^ (d + 1) = 2 * 2 ^ d := by ring
  omega

open LocalGeometryTypeIndex in
theorem regular_size_pos (d : Nat) : 0 < regular_size d := by
  cases d with
  | zero => simp [regular_size_zero]
  | succ d => rw [regular_size_succ]; exact Nat.two_pow_pos d

open LocalGeometryTypeIndex in
theorem half_lt_regular_size (d t : Nat) (h : t < 2 ^ d) : t >>> 1 < regular_size d := by
  cases d with
  | zero =>
    have ht : t = 0 := by simpa using h
    subst ht; simp [regular_size_zero]
  | succ d =>
    rw [regular_size_succ, Nat.shiftRight_eq_div_pow, pow_one]
    have h2 : 2 ^ (d + 1) = 2 * 2 ^ d := by ring
    omega

open LocalGeometryTypeIndex in
theorem index_lt_size (gt : GeometryType) (h : gt.WellFormed) : index gt < size gt.dim := by
  unfold index size GeometryType.isNone GeometryType.id
  by_cases hn : gt.none = true
  · simp [hn]
  · have ht : gt.topologyId < 2 ^ gt.dim := by
      rcases h with h | h
      · exact absurd h hn
      · exact h
    have := half_lt_regular_size gt.dim gt.topologyId ht
    simp only [hn]
    simp only [Bool.false_eq_true, if_false]
    omega

open LocalGeometryTypeIndex in
theorem index_eq_iff_same (a b : GeometryType) (ha : a.WellFormed) (hb : b.WellFormed)
    (hd : a.dim = b.dim) : index a = index b ↔ a.same b = true := by
  unfold index GeometryType.same GeometryType.isNone GeometryType.id
  rcases a with ⟨ta, da, na⟩
  rcases b with ⟨tb, db, nb⟩
  simp only at hd
  subst hd
  cases na <;> cases nb
  · simp
  · have hlt : ta >>> 1 < regular_size da := by
      rcases ha with h | h
      · simp at h
      · exact half_lt_regular_size _ _ h
    simp
    omega
  · have hlt : tb >>> 1 < regular_size da := by
      rcases hb with h | h
      · simp at h
      · exact half_lt_regular_size _ _ h
    simp
    omega
  · simp

/-! ## Facts about the registry -/

theorem simplex_wellFormed (dim : Nat) : (GeometryTypes.simplex dim).WellFormed :=
  Or.inr (Nat.two_pow_pos dim)

theorem cube_wellFormed (dim : Nat) : (GeometryTypes.cube dim).WellFormed := by
  refine Or.inr ?_
  show (if dim > 1 then (1 <<< dim) - 1 else 0) < 2 ^ dim
  have hp := Nat.two_pow_pos dim
  split
  · rw [Nat.one_shiftLeft]; omega
  · exact hp

theorem none_wellFormed (dim : Nat) : (GeometryTypes.none dim).WellFormed :=
  Or.inl rfl

theorem registry_wellFormed (dim order : Nat) :
    ∀ p ∈ ImplementedLagrangeFiniteElements dim order, p.1.dim = dim ∧ p.1.WellFormed := by
  intro p hp
  unfold ImplementedLagrangeFiniteElements at hp
  split at hp
  all_goals
    simp only [List.mem_cons, List.mem_singleton, List.not_mem_nil, or_false] at hp
    casesm* _ ∨ _ <;> subst p <;>
      first
        | exact ⟨rfl, simplex_wellFormed _⟩
        | exact ⟨rfl, cube_wellFormed _⟩
        | exact ⟨rfl, none_wellFormed _⟩
        | exact ⟨rfl, by decide⟩

theorem registry_index_lt (dim order : Nat) :
    ∀ p ∈ ImplementedLagrangeFiniteElements dim order,
      LocalGeometryTypeIndex.index p.1 < LocalGeometryTypeIndex.size dim := by
  intro p hp
  obtain ⟨hd, hw⟩ := registry_wellFormed dim order p hp
  have := index_lt_size p.1 hw
  rwa [hd] at this

/-! ## Facts about the cache constructor -/

open LagrangeFiniteElementCache LocalGeometryTypeIndex in
theorem emplaceAll_spec (reg : List RegistryPair) :
    ∀ cache_ : List (Option LocalFiniteElement),
      (∀ p ∈ reg, index p.1 < cache_.length) →
      ∃ res, emplaceAll reg cache_ = some res ∧ res.length = cache_.length ∧
        ∀ k, res[k]? = (cache_[k]?).map (slotAfter reg k) := by
  induction reg with
  | nil =>
    intro cache_ _
    refine ⟨cache_, rfl, rfl, ?_⟩
    intro k
    cases cache_[k]? <;> simp [slotAfter]
  | cons p rest ih =>
    intro cache_ h
    have hp : index p.1 < cache_.length := h p (List.mem_cons_self _ _)
    have hrest : ∀ q ∈ rest, index q.1 < (cache_.set (index p.1) (some (p.2 ()))).length := by
      intro q hq
      rw [List.length_set]
      exact h q (List.mem_cons_of_mem _ hq)
    obtain ⟨c, hc, hlen, hk⟩ := ih _ hrest
    refine ⟨c, ?_, ?_, ?_⟩
    · simp only [emplaceAll, hp, if_true]
      exact hc
    · rw [hlen, List.length_set]
    · intro k
      rw [hk k, List.getElem?_set]
      by_cases hik : index p.1 = k
      · subst hik
        simp [hp, slotAfter, List.getElem?_eq_getElem hp]
      · simp only [hik, if_false, slotAfter]

open LagrangeFiniteElementCache LocalGeometryTypeIndex in
theorem slotAfter_eq_none_iff (reg : List RegistryPair) (k : Nat) :
    ∀ cur, slotAfter reg k cur = none ↔ cur = none ∧ ∀ p ∈ reg, index p.1 ≠ k := by
  induction reg with
  | nil => intro cur; simp [slotAfter]
  | cons p rest ih =>
    intro cur
    simp only [slotAfter, ih, List.mem_cons, forall_eq_or_imp]
    by_cases hik : index p.1 = k
    · simp [hik]
    · simp [hik]

open LagrangeFiniteElementCache LocalGeometryTypeIndex in
theorem slotAfter_eq_some (reg : List RegistryPair) (k : Nat) (fe : LocalFiniteElement) :
    ∀ cur, slotAfter reg k cur = some fe →
      cur = some fe ∨ ∃ p ∈ reg, index p.1 = k ∧ p.2 () = fe := by
  induction reg with
  | nil => intro cur h; exact Or.inl (by simpa [slotAfter] using h)
  | cons p rest ih =>
    intro cur h
    simp only [slotAfter] at h
    rcases ih _ h with h1 | ⟨q, hq, hqk, hqv⟩
    · by_cases hik : index p.1 = k
      · right
        refine ⟨p, List.mem_cons_self _ _, hik, ?_⟩
        simpa [hik] using h1
      · left
        simpa [hik] using h1
    · exact Or.inr ⟨q, List.mem_cons_of_mem _ hq, hqk, hqv⟩

open LagrangeFiniteElementCache LocalGeometryTypeIndex in
theorem slotAfter_agree (reg : List RegistryPair) (k : Nat) (fe : LocalFiniteElement)
    (hall : ∀ q ∈ reg, index q.1 = k → q.2 () = fe) :
    ∀ cur, (cur = some fe ∨ ∃ q ∈ reg, index q.1 = k) → slotAfter reg k cur = some fe := by
  induction reg with
  | nil =>
    intro cur h
    rcases h with h | ⟨q, hq, _⟩
    · simpa [slotAfter] using h
    · simp at hq
  | cons p rest ih =>
    intro cur h
    simp only [slotAfter]
    apply ih (fun q hq => hall q (List.mem_cons_of_mem _ hq))
    by_cases hik : index p.1 = k
    · left
      simp [hik, hall p (List.mem_cons_self _ _) hik]
    · rcases h with h | ⟨q, hq, hqk⟩
      · left; simp [hik, h]
      · rcases List.mem_cons.mp hq with rfl | hq
        · exact absurd hqk hik
        · exact Or.inr ⟨q, hq, hqk⟩

open LagrangeFiniteElementCache LocalGeometryTypeIndex in
theorem new_spec (dim order : Nat) :
    ∃ c : LagrangeFiniteElementCache dim order,
      LagrangeFiniteElementCache.new dim order = some c ∧
      c.cache_.length = size dim ∧
      ∀ k, k < size dim →
        c.cache_[k]? = some (slotAfter (ImplementedLagrangeFiniteElements dim order) k none) := by
  have h := emplaceAll_spec (ImplementedLagrangeFiniteElements dim order)
    (List.replicate (size dim) Option.none)
    (by simpa using registry_index_lt dim order)
  obtain ⟨c, hc, hlen, hk⟩ := h
  refine ⟨⟨c⟩, ?_, ?_, ?_⟩
  · simp [LagrangeFiniteElementCache.new, hc]
  · simpa using hlen
  · intro k hklt
    rw [hk k]
    simp [hklt]

open LagrangeFiniteElementCache LocalGeometryTypeIndex in
theorem get_spec (dim order : Nat) :
    ∃ c : LagrangeFiniteElementCache dim order,
      LagrangeFiniteElementCache.new dim order = some c ∧
      ∀ gt : GeometryType, c.get gt =
        if index gt < size dim then
          match slotAfter (ImplementedLagrangeFiniteElements dim order) (index gt) none with
          | Option.none => .error .NotImplemented
          | some fe => .ok fe
        else .error .OutOfRange := by
  obtain ⟨c, hc, hlen, hk⟩ := new_spec dim order
  refine ⟨c, hc, ?_⟩
  intro gt
  by_cases hlt : index gt < size dim
  · simp only [LagrangeFiniteElementCache.get, hk _ hlt, hlt, if_true]
    cases slotAfter (ImplementedLagrangeFiniteElements dim order) (index gt) none <;> rfl
  · have hnone : c.cache_[index gt]? = Option.none := by
      apply List.getElem?_eq_none
      omega
    simp only [LagrangeFiniteElementCache.get, hnone, hlt, if_false]

open LagrangeFiniteElementCache LocalGeometryTypeIndex in
theorem registry_index_eq_iff_same (dim order : Nat) (gt : GeometryType) (hdim : gt.dim = dim)
    (hwf : gt.WellFormed) (p : RegistryPair)
    (hp : p ∈ ImplementedLagrangeFiniteElements dim order) :
    index p.1 = index gt ↔ p.1.same gt = true := by
  obtain ⟨hd, hw⟩ := registry_wellFormed dim order p hp
  exact index_eq_iff_same p.1 gt hw hwf (by rw [hd, hdim])

open LocalGeometryTypeIndex in
theorem index_simplex (dim : Nat) : index (GeometryTypes.simplex dim) = 0 := by
  simp [index, GeometryTypes.simplex, GeometryType.isNone, GeometryType.id]

open LocalGeometryTypeIndex in
theorem index_cube (d : Nat) : index (GeometryTypes.cube (d + 2)) = 2 ^ (d + 1) - 1 := by
  simp only [index, GeometryTypes.cube, GeometryType.isNone, GeometryType.id,
    Nat.one_shiftLeft, Nat.shiftRight_eq_div_pow, pow_one]
  have h2 : 2 ^ (d + 2) = 2 * 2 ^ (d + 1) := by ring
  have hp := Nat.two_pow_pos (d + 1)
  have hgt : d + 2 > 1 := by omega
  simp only [hgt, if_true, Bool.false_eq_true, if_false]
  omega

open LocalGeometryTypeIndex in
theorem index_none (dim : Nat) : index (GeometryTypes.none dim) = regular_size dim := by
  simp [index, GeometryTypes.none, GeometryType.isNone]

open LocalGeometryTypeIndex in
theorem registry_index_nodup (dim order : Nat) (h : 2 ≤ dim) :
    ((ImplementedLagrangeFiniteElements dim order).map (fun p => index p.1)).Nodup := by
  obtain ⟨d, rfl⟩ : ∃ d, dim = d + 2 := ⟨dim - 2, by omega⟩
  have hp := Nat.two_pow_pos (d + 1)
  have hp1 : 2 ≤ 2 ^ (d + 1) := by
    have : 2 ^ (d + 1) = 2 * 2 ^ d := by ring
    have := Nat.two_pow_pos d
    omega
  have hrs : regular_size (d + 2) = 2 ^ (d + 1) := regular_size_succ (d + 1)
  unfold ImplementedLagrangeFiniteElements
  split
  · decide
  · decide
  · decide
  · simp only [List.map_cons, List.map_nil, index_simplex, index_cube, index_none, hrs,
      List.nodup_cons, List.mem_cons, List.mem_singleton, List.not_mem_nil, List.nodup_nil,
      or_false, not_false_eq_true, and_true, not_or]
    omega
  · simp only [List.map_cons, List.map_nil, index_simplex, index_cube,
      List.nodup_cons, List.mem_cons, List.mem_singleton, List.not_mem_nil, List.nodup_nil,
      or_false, not_false_eq_true, and_true, not_or]
    omega

open LocalGeometryTypeIndex in
theorem registry_index_injOn (dim order : Nat) (h : 2 ≤ dim ∨ order = 0)
    (p q : RegistryPair) (hp : p ∈ ImplementedLagrangeFiniteElements dim order)
    (hq : q ∈ ImplementedLagrangeFiniteElements dim order)
    (hidx : index q.1 = index p.1) : q.2 () = p.2 () := by
  by_cases h2 : 2 ≤ dim
  · have hinj := List.inj_on_of_nodup_map (registry_index_nodup dim order h2) hq hp hidx
    rw [hinj]
  · have ho : order = 0 := by
      rcases h with h | h
      · exact absurd h h2
      · exact h
    subst ho
    have hd : dim = 0 ∨ dim = 1 := by omega
    rcases hd with rfl | rfl
    · simp only [ImplementedLagrangeFiniteElements, List.mem_cons, List.mem_singleton,
        List.not_mem_nil, or_false] at hp hq
      rcases hp with rfl | rfl | rfl <;> rcases hq with rfl | rfl | rfl <;>
        first
          | rfl
          | exact absurd hidx (by decide)
    · simp only [ImplementedLagrangeFiniteElements, List.mem_cons, List.mem_singleton,
        List.not_mem_nil, or_false] at hp hq
      rcases hp with rfl | rfl | rfl <;> rcases hq with rfl | rfl | rfl <;>
        first
          | rfl
          | exact absurd hidx (by decide)

/-! ## The lookup fails exactly for the geometry types absent from the registry -/

open LagrangeFiniteElementCache LocalGeometryTypeIndex in
/-- C1: for every cache configuration `(dim, order)` the constructor succeeds, and for every
geometry type `gt` of dimension `dim` (the `none` type, or a topology id below `2 ^ dim`)
`get gt` fails with `NotImplemented` if and only if no registry pair has a geometry type equal
to `gt`; when some pair has, `get gt` returns without failing the element constructed by a
registry pair for that geometry type. -/
theorem get_notImplemented_iff_absent (dim order : Nat) (gt : GeometryType)
    (hdim : gt.dim = dim) (hwf : gt.WellFormed) :
    ∃ cache : LagrangeFiniteElementCache dim order,
      LagrangeFiniteElementCache.new dim order = some cache ∧
      (cache.get gt = .error .NotImplemented ↔
        ¬ ∃ p ∈ ImplementedLagrangeFiniteElements dim order, p.1.same gt = true) ∧
      ((∃ p ∈ ImplementedLagrangeFiniteElements dim order, p.1.same gt = true) →
        ∃ q ∈ ImplementedLagrangeFiniteElements dim order,
          q.1.same gt = true ∧ cache.get gt = .ok (q.2 ())) := by
  obtain ⟨cache, hnew, hget⟩ := get_spec dim order
  have hlt : index gt < size dim := by
    have := index_lt_size gt hwf
    rwa [hdim] at this
  refine ⟨cache, hnew, ?_, ?_⟩
  · rw [hget gt]
    simp only [hlt, if_true]
    constructor
    · intro h
      have hnone : slotAfter (ImplementedLagrangeFiniteElements dim order) (index gt) none
          = none := by
        cases hs : slotAfter (ImplementedLagrangeFiniteElements dim order) (index gt) none with
        | none => rfl
        | some fe => rw [hs] at h; cases h
      rintro ⟨p, hp, hsame⟩
      exact ((slotAfter_eq_none_iff _ _ _).mp hnone).2 p hp
        ((registry_index_eq_iff_same dim order gt hdim hwf p hp).mpr hsame)
    · intro h
      have hnone : slotAfter (ImplementedLagrangeFiniteElements dim order) (index gt) none
          = none := by
        rw [slotAfter_eq_none_iff]
        refine ⟨rfl, ?_⟩
        intro p hp hidx
        exact h ⟨p, hp, (registry_index_eq_iff_same dim order gt hdim hwf p hp).mp hidx⟩
      rw [hnone]
  · rintro ⟨p, hp, hsame⟩
    have hidx := (registry_index_eq_iff_same dim order gt hdim hwf p hp).mpr hsame
    cases hs : slotAfter (ImplementedLagrangeFiniteElements dim order) (index gt) none with
    | none => exact absurd hidx (((slotAfter_eq_none_iff _ _ _).mp hs).2 p hp)
    | some fe =>
      rcases slotAfter_eq_some _ _ _ _ hs with h | ⟨q, hq, hqk, hqv⟩
      · cases h
      · refine ⟨q, hq, (registry_index_eq_iff_same dim order gt hdim hwf q hq).mp hqk, ?_⟩
        rw [hget gt, hs, hqv]
        simp only [hlt, if_true]

open LagrangeFiniteElementCache in
/-- Witness for C1 at the configuration `(2, 1)` and the triangle. -/
theorem get_notImplemented_iff_absent_witness :
    GeometryTypes.triangle.dim = 2 ∧ GeometryTypes.triangle.WellFormed ∧
    ∃ cache : LagrangeFiniteElementCache 2 1,
      LagrangeFiniteElementCache.new 2 1 = some cache ∧
      (cache.get GeometryTypes.triangle = .error .NotImplemented ↔
        ¬ ∃ p ∈ ImplementedLagrangeFiniteElements 2 1,
          p.1.same GeometryTypes.triangle = true) ∧
      ((∃ p ∈ ImplementedLagrangeFiniteElements 2 1, p.1.same GeometryTypes.triangle = true) →
        ∃ q ∈ ImplementedLagrangeFiniteElements 2 1,
          q.1.same GeometryTypes.triangle = true ∧
            cache.get GeometryTypes.triangle = .ok (q.2 ())) :=
  ⟨rfl, by decide, get_notImplemented_iff_absent 2 1 GeometryTypes.triangle rfl (by decide)⟩

/-! ## What the slots hold after construction -/

open LagrangeFiniteElementCache LocalGeometryTypeIndex in
/-- C2, as stated, fails in dimension 1: with order 1 the registry lists the simplex with the
constructor of `Pk` and the cube with the constructor of `Qk`; both geometry types are the
line, with slot index 0, and after construction `get` of the simplex returns the `Qk`
element of the cube pair, not the element of the simplex pair's own constructor. -/
theorem get_simplex_dim_one_not_own_constructor :
    ∃ cache : LagrangeFiniteElementCache 1 1,
      LagrangeFiniteElementCache.new 1 1 = some cache ∧
      cache.get (GeometryTypes.simplex 1) = .ok (.Qk 1 1) ∧
      ¬ ∀ p ∈ ImplementedLagrangeFiniteElements 1 1, cache.get p.1 = .ok (p.2 ()) := by
  refine ⟨⟨[some (.Qk 1 1), Option.none]⟩, by decide, rfl, ?_⟩
  intro h
  have h1 := h (GeometryTypes.simplex 1, fun _ => .Pk 1 1) (List.mem_cons_self _ _)
  have h2 : (⟨[some (.Qk 1 1), Option.none]⟩ : LagrangeFiniteElementCache 1 1).get
      (GeometryTypes.simplex 1) = .ok (.Qk 1 1) := rfl
  rw [h2] at h1
  cases h1

open LagrangeFiniteElementCache LocalGeometryTypeIndex in
/-- C2 (amended): for every configuration `(dim, order)` the constructor succeeds and the
cache has `size dim` slots; every slot whose index is not the index of a registry geometry
type is empty; and when `dim ≥ 2` or `order = 0`, for every registry pair `get` of its
geometry type returns the element produced by that pair's own constructor. -/
theorem get_returns_own_constructor (dim order : Nat) :
    ∃ cache : LagrangeFiniteElementCache dim order,
      LagrangeFiniteElementCache.new dim order = some cache ∧
      cache.cache_.length = size dim ∧
      (∀ k, k < size dim →
        (∀ p ∈ ImplementedLagrangeFiniteElements dim order, index p.1 ≠ k) →
        cache.cache_[k]? = some Option.none) ∧
      ((2 ≤ dim ∨ order = 0) →
        ∀ p ∈ ImplementedLagrangeFiniteElements dim order, cache.get p.1 = .ok (p.2 ())) := by
  obtain ⟨cache, hnew, hlen, hk⟩ := new_spec dim order
  refine ⟨cache, hnew, hlen, ?_, ?_⟩
  · intro k hklt hno
    rw [hk k hklt, (slotAfter_eq_none_iff _ _ _).mpr ⟨rfl, hno⟩]
  · intro h p hp
    have hlt := registry_index_lt dim order p hp
    have hslot : slotAfter (ImplementedLagrangeFiniteElements dim order) (index p.1) none
        = some (p.2 ()) :=
      slotAfter_agree _ _ _
        (fun q hq hidx => registry_index_injOn dim order h p q hp hq hidx) _
        (Or.inr ⟨p, hp, rfl⟩)
    simp only [LagrangeFiniteElementCache.get, hk _ hlt, hslot]

open LagrangeFiniteElementCache LocalGeometryTypeIndex in
/-- Witness for C2 (amended) at the configuration `(2, 1)`. -/
theorem get_returns_own_constructor_witness :
    (2 ≤ 2 ∨ 1 = 0) ∧
    ∃ cache : LagrangeFiniteElementCache 2 1,
      LagrangeFiniteElementCache.new 2 1 = some cache ∧
      ∀ p ∈ ImplementedLagrangeFiniteElements 2 1, cache.get p.1 = .ok (p.2 ()) := by
  refine ⟨Or.inl (Nat.le_refl 2), ?_⟩
  obtain ⟨cache, hnew, _, _, hown⟩ := get_returns_own_constructor 2 1
  exact ⟨cache, hnew, hown (Or.inl (Nat.le_refl 2))⟩

/-! ## Geometry types of another dimension -/

open LagrangeFiniteElementCache LocalGeometryTypeIndex in
/-- C5, as stated, fails: in the cache of the configuration `(2, 1)` the tetrahedron, of
dimension 3, has slot index 0 and `get` returns the `Pk` element stored for the triangle
instead of failing with `NotImplemented`; and the hexahedron, of dimension 3, has slot
index 3, which is outside the slot array of length `size 2 = 3`. -/
theorem get_other_dimension_not_rejected :
    ∃ cache : LagrangeFiniteElementCache 2 1,
      LagrangeFiniteElementCache.new 2 1 = some cache ∧
      GeometryTypes.tetrahedron.dim ≠ 2 ∧
      cache.get GeometryTypes.tetrahedron = .ok (.Pk 2 1) ∧
      cache.get GeometryTypes.triangle = .ok (.Pk 2 1) ∧
      GeometryTypes.hexahedron.dim ≠ 2 ∧
      ¬ index GeometryTypes.hexahedron < size 2 ∧
      cache.get GeometryTypes.hexahedron = .error .OutOfRange :=
  ⟨⟨[some (.Pk 2 1), some (.Qk 2 1), Option.none]⟩, by decide, by decide, rfl, rfl,
    by decide, by decide, rfl⟩

open LagrangeFiniteElementCache LocalGeometryTypeIndex in
/-- C5 (amended): `get` makes no check of the dimension.  For every configuration
`(dim, order)` the constructor succeeds; every valid geometry type of dimension `dim` (the
`none` type, or a topology id below `2 ^ dim`) has its slot index inside the slot array of
length `size dim`; and for every geometry type value `gt`, of whatever dimension, whose slot
index lies inside the slot array, `get gt` fails with `NotImplemented` if and only if no
registry pair has that slot index, and otherwise it returns the element constructed by a
registry pair with that slot index.  Nothing is stated for a slot index outside the
array. -/
theorem get_in_range_decided_by_slot (dim order : Nat) (gt : GeometryType) :
    ∃ cache : LagrangeFiniteElementCache dim order,
      LagrangeFiniteElementCache.new dim order = some cache ∧
      (gt.dim = dim → gt.WellFormed → index gt < size dim) ∧
      (index gt < size dim →
        (cache.get gt = .error .NotImplemented ↔
          ∀ p ∈ ImplementedLagrangeFiniteElements dim order, index p.1 ≠ index gt) ∧
        (∀ fe, cache.get gt = .ok fe →
          ∃ p ∈ ImplementedLagrangeFiniteElements dim order,
            index p.1 = index gt ∧ p.2 () = fe) ∧
        ((∃ p ∈ ImplementedLagrangeFiniteElements dim order, index p.1 = index gt) →
          ∃ q ∈ ImplementedLagrangeFiniteElements dim order,
            index q.1 = index gt ∧ cache.get gt = .ok (q.2 ()))) := by
  obtain ⟨cache, hnew, hget⟩ := get_spec dim order
  refine ⟨cache, hnew, ?_, ?_⟩
  · intro hdim hwf
    have := index_lt_size gt hwf
    rwa [hdim] at this
  · intro hlt
    rw [hget gt]
    simp only [hlt, if_true]
    cases hs : slotAfter (ImplementedLagrangeFiniteElements dim order) (index gt) none with
    | none =>
      have hno := ((slotAfter_eq_none_iff _ _ _).mp hs).2
      refine ⟨⟨fun _ => hno, fun _ => rfl⟩, ?_, ?_⟩
      · intro fe hfe
        cases hfe
      · rintro ⟨p, hp, hidx⟩
        exact absurd hidx (hno p hp)
    | some fe =>
      have hex : ∃ p ∈ ImplementedLagrangeFiniteElements dim order,
          index p.1 = index gt ∧ p.2 () = fe := by
        rcases slotAfter_eq_some _ _ _ _ hs with h | h
        · cases h
        · exact h
      refine ⟨⟨?_, ?_⟩, ?_, ?_⟩
      · intro h
        cases h
      · intro h
        obtain ⟨p, hp, hidx, _⟩ := hex
        exact absurd hidx (h p hp)
      · intro fe2 hfe2
        have hEq : fe = fe2 := by cases hfe2; rfl
        subst hEq
        exact hex
      · intro _
        obtain ⟨p, hp, hidx, hval⟩ := hex
        exact ⟨p, hp, hidx, by rw [hval]⟩

open LagrangeFiniteElementCache LocalGeometryTypeIndex in
/-- Witness for C5 (amended) at the configuration `(2, 1)`: the triangle, of dimension 2, and
the tetrahedron, of dimension 3, whose slot index 0 lies inside the slot array. -/
theorem get_in_range_decided_by_slot_witness :
    GeometryTypes.triangle.dim = 2 ∧ GeometryTypes.triangle.WellFormed ∧
    index GeometryTypes.triangle < size 2 ∧
    index GeometryTypes.tetrahedron < size 2 ∧
    ∃ cache : LagrangeFiniteElementCache 2 1,
      LagrangeFiniteElementCache.new 2 1 = some cache ∧
      ∃ q ∈ ImplementedLagrangeFiniteElements 2 1,
        index q.1 = index GeometryTypes.tetrahedron ∧
          cache.get GeometryTypes.tetrahedron = .ok (q.2 ()) := by
  obtain ⟨_, _, hlt, _⟩ := get_in_range_decided_by_slot 2 1 GeometryTypes.triangle
  obtain ⟨cache, hnew, _, hin⟩ := get_in_range_decided_by_slot 2 1 GeometryTypes.tetrahedron
  exact ⟨rfl, by decide, hlt rfl (by decide), by decide, cache, hnew,
    (hin (by decide)).2.2
      ⟨(GeometryTypes.simplex 2, fun _ => .Pk 2 1), List.mem_cons_self _ _, by decide⟩⟩

/-! ## Each slot is populated at most once -/

open LagrangeFiniteElementCache LocalGeometryTypeIndex in
/-- C9, as stated, fails in dimension 1 (and 0): the simplex and the cube of dimension 1 are
both the line, with slot index 0, so the slot indices of the registry of the configuration
`(1, 1)` are not pairwise distinct, and the `emplace` of the cube pair finds the slot
already filled by the simplex pair. -/
theorem registry_slots_collide_dim_one :
    ¬ ((ImplementedLagrangeFiniteElements 1 1).map (fun p => index p.1)).Nodup ∧
    ¬ ((ImplementedLagrangeFiniteElements 0 1).map (fun p => index p.1)).Nodup ∧
    ImplementedLagrangeFiniteElements 1 1 =
      [(GeometryTypes.simplex 1, fun _ => .Pk 1 1), (GeometryTypes.cube 1, fun _ => .Qk 1 1)] ∧
    slotAfter [(GeometryTypes.simplex 1, fun _ => .Pk 1 1)]
      (index (GeometryTypes.cube 1)) Option.none = some (.Pk 1 1) :=
  ⟨by decide, by decide, rfl, by decide⟩

open LagrangeFiniteElementCache LocalGeometryTypeIndex in
/-- C9 (amended): for every configuration `(dim, order)` with `dim ≥ 2` the geometry types
listed in the registry map under `index` to pairwise distinct slot indices, so each slot is
the target of at most one registry pair and every `emplace` of the constructor finds its
slot still empty. -/
theorem registry_slots_distinct (dim order : Nat) (h : 2 ≤ dim) :
    ((ImplementedLagrangeFiniteElements dim order).map (fun p => index p.1)).Nodup ∧
    (∀ k, ((ImplementedLagrangeFiniteElements dim order).map (fun p => index p.1)).count k ≤ 1) ∧
    (∀ pre p post, ImplementedLagrangeFiniteElements dim order = pre ++ p :: post →
      slotAfter pre (index p.1) Option.none = Option.none) := by
  have hnd := registry_index_nodup dim order h
  refine ⟨hnd, fun k => List.nodup_iff_count_le_one.mp hnd k, ?_⟩
  intro pre p post hsplit
  rw [slotAfter_eq_none_iff]
  refine ⟨rfl, ?_⟩
  intro q hq hidx
  rw [hsplit, List.map_append, List.nodup_append] at hnd
  exact hnd.2.2 (List.mem_map.mpr ⟨q, hq, hidx⟩)
    (List.mem_map.mpr ⟨p, List.mem_cons_self _ _, rfl⟩)

open LagrangeFiniteElementCache LocalGeometryTypeIndex in
/-- Witness for C9 (amended) at the configuration `(2, 1)`. -/
theorem registry_slots_distinct_witness :
    2 ≤ 2 ∧ ((ImplementedLagrangeFiniteElements 2 1).map (fun p => index p.1)).Nodup :=
  ⟨Nat.le_refl 2, (registry_slots_distinct 2 1 (Nat.le_refl 2)).1⟩

/-! ## Removing duplicate implementation types -/

theorem UniqueTypesHelper_mem {α : Type} [DecidableEq α] (ts : List α) :
    ∀ (processed : List α) (x : α),
      x ∈ Impl.UniqueTypesHelper ts processed ↔ x ∈ ts ∨ x ∈ processed := by
  induction ts with
  | nil => intro processed x; simp [Impl.UniqueTypesHelper]
  | cons t0 t ih =>
    intro processed x
    unfold Impl.UniqueTypesHelper
    by_cases hmem : t0 ∈ processed
    · have hany : processed.any (fun p => decide (t0 = p)) = true := by
        simp only [List.any_eq_true, decide_eq_true_eq]
        exact ⟨t0, hmem, rfl⟩
      rw [if_pos hany, ih]
      simp only [List.mem_cons]
      constructor
      · rintro (h | h)
        · exact Or.inl (Or.inr h)
        · exact Or.inr h
      · rintro ((h | h) | h)
        · exact Or.inr (h ▸ hmem)
        · exact Or.inl h
        · exact Or.inr h
    · have hany : ¬ processed.any (fun p => decide (t0 = p)) = true := by
        simp only [List.any_eq_true, decide_eq_true_eq]
        rintro ⟨p, hp, rfl⟩
        exact hmem hp
      rw [if_neg hany, ih]
      simp only [List.mem_cons]
      tauto

theorem UniqueTypesHelper_nodup {α : Type} [DecidableEq α] (ts : List α) :
    ∀ processed : List α, processed.Nodup → (Impl.UniqueTypesHelper ts processed).Nodup := by
  induction ts with
  | nil => intro processed h; simpa [Impl.UniqueTypesHelper] using h
  | cons t0 t ih =>
    intro processed h
    unfold Impl.UniqueTypesHelper
    by_cases hmem : t0 ∈ processed
    · have hany : processed.any (fun p => decide (t0 = p)) = true := by
        simp only [List.any_eq_true, decide_eq_true_eq]
        exact ⟨t0, hmem, rfl⟩
      rw [if_pos hany]
      exact ih processed h
    · have hany : ¬ processed.any (fun p => decide (t0 = p)) = true := by
        simp only [List.any_eq_true, decide_eq_true_eq]
        rintro ⟨p, hp, rfl⟩
        exact hmem hp
      rw [if_neg hany]
      exact ih (t0 :: processed) (List.nodup_cons.mpr ⟨hmem, h⟩)

theorem FiniteElementType_order_zero (dim : Nat) :
    LagrangeFiniteElementCache.FiniteElementType dim 0 = [LFEType.P0 dim] := by
  unfold LagrangeFiniteElementCache.FiniteElementType ImplementedLagrangeFiniteElements
  split <;>
    simp_all [Impl.UniqueTypes_t, Impl.UniqueTypesHelper, LocalFiniteElement.implType]

/-- C4: for every list of types `ts` the list that `UniqueTypes_t` hands to `Target` contains
no type twice, and a type occurs in it if and only if it occurs in `ts`.  Consequently, for
every configuration, `FiniteElementType` has no duplicate alternative, its alternatives are
exactly the implementation types constructed by the registry pairs, each listed exactly once;
and for order 0 it lists the single type `P0LocalFiniteElement<D,R,dim>`. -/
theorem UniqueTypes_t_dedup :
    (∀ (α : Type) [DecidableEq α] (ts : List α),
      (Impl.UniqueTypes_t ts).Nodup ∧ ∀ t, t ∈ Impl.UniqueTypes_t ts ↔ t ∈ ts) ∧
    (∀ dim order : Nat,
      (LagrangeFiniteElementCache.FiniteElementType dim order).Nodup ∧
      ∀ t, (∃ p ∈ ImplementedLagrangeFiniteElements dim order, (p.2 ()).implType = t) ↔
        (LagrangeFiniteElementCache.FiniteElementType dim order).count t = 1) ∧
    (∀ dim : Nat, LagrangeFiniteElementCache.FiniteElementType dim 0 = [LFEType.P0 dim]) := by
  refine ⟨?_, ?_, FiniteElementType_order_zero⟩
  · intro α _ ts
    refine ⟨UniqueTypesHelper_nodup ts [] List.nodup_nil, ?_⟩
    intro t
    simp [Impl.UniqueTypes_t, UniqueTypesHelper_mem]
  · intro dim order
    have hnd : (LagrangeFiniteElementCache.FiniteElementType dim order).Nodup :=
      UniqueTypesHelper_nodup _ [] List.nodup_nil
    refine ⟨hnd, ?_⟩
    intro t
    have hmem : t ∈ LagrangeFiniteElementCache.FiniteElementType dim order ↔
        ∃ p ∈ ImplementedLagrangeFiniteElements dim order, (p.2 ()).implType = t := by
      simp [LagrangeFiniteElementCache.FiniteElementType, Impl.UniqueTypes_t,
        UniqueTypesHelper_mem]
    rw [← hmem]
    constructor
    · intro h
      exact List.count_eq_one_of_mem hnd h
    · intro h
      apply List.count_pos_iff.mp
      omega

/-! ## Facts about vectors and loops -/

theorem StdVector.length_resize {α : Type} (v : List α) (n : Nat) (fill : α) :
    (StdVector.resize v n fill).length = n := by
  simp only [StdVector.resize, List.length_append, List.length_take, List.length_replicate]
  omega

theorem StdVector.modify_eq {α : Type} (v : List α) (i : Nat) (f : α → Option α) (a b : α)
    (hv : v[i]? = some a) (hf : f a = some b) :
    StdVector.modify v i f = some (v.set i b) := by
  simp [StdVector.modify, hv, hf]

theorem StdVector.modify_eq_none {α : Type} (v : List α) (i : Nat) (f : α → Option α)
    (hf : ∀ a, f a = none) : StdVector.modify v i f = none := by
  unfold StdVector.modify
  cases v[i]? with
  | none => rfl
  | some a => simp [hf a]

theorem forLoop_succ {σ : Type} (n : Nat) (body : Nat → σ → Option σ) (s : σ) :
    forLoop (n + 1) body s = (forLoop n body s).bind (body n) := rfl

theorem getElem?_of_lt {α : Type} (v : List α) (i : Nat) (h : i < v.length) :
    ∃ a, v[i]? = some a :=
  ⟨v[i], List.getElem?_eq_getElem h⟩

theorem set_of_getElem? {α : Type} (v : List α) (i : Nat) (a : α) (h : v[i]? = some a) :
    v.set i a = v := by
  apply List.ext_getElem?
  intro k
  by_cases hik : i = k
  · subst hik
    obtain ⟨hlt, _⟩ := List.getElem?_eq_some.mp h
    rw [List.getElem?_set_self hlt, h]
  · rw [List.getElem?_set_ne hik]

/-! ## Facts about the linear shape functions -/

namespace P1LocalBasis

/-- The loop of `evaluateFunction`: after `n` passes entry 0 holds its initial value less
the first `n` coordinates, and entry `i + 1` holds coordinate `i` for every `i < n`. -/
theorem evaluateFunction_loop (dim : Nat) (inp : DomainType dim) (s0 : List RangeType)
    (h0 : s0.length = dim + 1) (c0 : ℚ) (hs0 : s0[0]? = some (fun _ => c0)) :
    ∀ n, n ≤ dim → ∃ s,
      forLoop n (fun i out => do
        let x ← inp.read i
        let out ← StdVector.modify out 0 (fun v => some (v.subScalar x))
        let y ← inp.read i
        StdVector.modify out (i + 1) (fun v => some (v.assign y))) s0 = some s ∧
      s.length = dim + 1 ∧
      s[0]? = some (fun _ => c0 - ∑ i in Finset.range n,
        (if h : i < dim then inp ⟨i, h⟩ else 0)) ∧
      ∀ i, i < n → s[i + 1]? = some (fun _ => if h : i < dim then inp ⟨i, h⟩ else 0) := by
  intro n
  induction n with
  | zero =>
    intro _
    exact ⟨s0, rfl, h0, by simpa using hs0, fun i hi => absurd hi (Nat.not_lt_zero i)⟩
  | succ n ih =>
    intro hn
    obtain ⟨s, hs, hlen, hz, hrest⟩ := ih (by omega)
    have hnd : n < dim := by omega
    have hread : FieldVector.read inp n = some (inp ⟨n, hnd⟩) := by
      simp [FieldVector.read, hnd]
    have hm1 := StdVector.modify_eq s 0
      (fun v => some (FieldVector.subScalar v (inp ⟨n, hnd⟩))) _ _ hz rfl
    obtain ⟨a, ha⟩ := getElem?_of_lt
      (s.set 0 (FieldVector.subScalar
        (fun _ => c0 - ∑ i in Finset.range n, (if h : i < dim then inp ⟨i, h⟩ else 0))
        (inp ⟨n, hnd⟩))) (n + 1) (by rw [List.length_set]; omega)
    have hm2 := StdVector.modify_eq _ (n + 1)
      (fun v => some (FieldVector.assign v (inp ⟨n, hnd⟩))) _ _ ha rfl
    refine ⟨(s.set 0 (FieldVector.subScalar
        (fun _ => c0 - ∑ i in Finset.range n, (if h : i < dim then inp ⟨i, h⟩ else 0))
        (inp ⟨n, hnd⟩))).set (n + 1) (FieldVector.assign a (inp ⟨n, hnd⟩)), ?_, ?_, ?_, ?_⟩
    · rw [forLoop_succ, hs]
      simp only [Option.bind_eq_bind, Option.some_bind, hread, hm1, hm2]
    · simp [hlen]
    · rw [List.getElem?_set_ne (by omega), List.getElem?_set_self (by omega)]
      congr 1
      funext _
      simp only [FieldVector.subScalar, Finset.sum_range_succ, hnd, dif_pos]
      ring
    · intro i hi
      by_cases hin : i = n
      · subst hin
        rw [List.getElem?_set_self (by rw [List.length_set]; omega)]
        congr 1
        funext _
        simp [FieldVector.assign, hnd]
      · rw [List.getElem?_set_ne (by omega), List.getElem?_set_ne (by omega)]
        exact hrest i (by omega)

/-- The values `evaluateFunction` leaves in `out`: shape function 0 is one less the sum of
the coordinates, shape function `i + 1` is coordinate `i`. -/
theorem evaluateFunction_eq (dim : Nat) (inp : DomainType dim) (out : List RangeType)
    (fill : RangeType) :
    evaluateFunction dim inp out fill =
      some ((fun _ => 1 - ∑ i : Fin dim, inp i) ::
        List.ofFn (fun i : Fin dim => (fun _ => inp i : RangeType))) := by
  have hlen0 := StdVector.length_resize out (size dim) fill
  obtain ⟨a, ha⟩ := getElem?_of_lt (StdVector.resize out (size dim) fill) 0
    (by rw [hlen0]; simp [size])
  have hm := StdVector.modify_eq _ 0 (fun v => some (FieldVector.assign v (1 : ℚ))) _ _ ha rfl
  obtain ⟨s, hs, hlen, hz, hrest⟩ := evaluateFunction_loop dim inp
    ((StdVector.resize out (size dim) fill).set 0 (FieldVector.assign a 1))
    (by rw [List.length_set, hlen0]; rfl) 1
    (by rw [List.getElem?_set_self (by rw [hlen0]; simp [size])]; rfl) dim (Nat.le_refl dim)
  unfold evaluateFunction
  simp only [Option.bind_eq_bind] at hs
  simp only [Option.bind_eq_bind, hm, Option.some_bind]
  rw [hs]
  congr 1
  apply List.ext_getElem?
  intro k
  cases k with
  | zero =>
    rw [hz]
    simp only [List.getElem?_cons_zero]
    congr 1
    funext _
    rw [Finset.sum_range]
    congr 1
    apply Finset.sum_congr rfl
    intro i _
    simp
  | succ k =>
    simp only [List.getElem?_cons_succ]
    by_cases hk : k < dim
    · rw [hrest k hk]
      simp [List.getElem?_ofFn, hk]
    · rw [List.getElem?_eq_none (by omega), List.getElem?_eq_none (by simp; omega)]

end P1LocalBasis

namespace P1LocalBasis

/-- A loop that writes `g j` to the entry `[0][j]` of the Jacobian `k` for `j < m` leaves
the other Jacobians and the remaining entries as they were. -/
theorem fillRow_loop (dim k : Nat) (g : Nat → ℚ) (s0 : List (JacobianType dim))
    (J : JacobianType dim) (hk : s0[k]? = some J) :
    ∀ m, m ≤ dim →
      forLoop m (fun j out =>
        StdVector.modify out k (fun J => J.modify 0 (fun row => row.write j (g j)))) s0 =
      some (s0.set k (fun r c => if c.val < m then g c.val else J r c)) := by
  obtain ⟨hklt, hkJ⟩ := List.getElem?_eq_some.mp hk
  intro m
  induction m with
  | zero =>
    intro _
    simp only [forLoop, Nat.not_lt_zero, if_false]
    exact congrArg some (set_of_getElem? s0 k J hk).symm
  | succ m ih =>
    intro hm
    have hmd : m < dim := by omega
    rw [forLoop_succ, ih (by omega)]
    simp only [Option.some_bind]
    have hget : (s0.set k (fun r c => if c.val < m then g c.val else J r c))[k]? =
        some (fun r c => if c.val < m then g c.val else J r c) :=
      List.getElem?_set_self hklt
    rw [StdVector.modify_eq _ k _ _
      (Function.update (fun r c => if c.val < m then g c.val else J r c) 0
        (Function.update (fun c => if c.val < m then g c.val else J 0 c) ⟨m, hmd⟩ (g m))) hget
      (by simp [FieldVector.modify, FieldVector.write, hmd])]
    rw [List.set_set]
    congr 2
    funext r c
    have hr : r = 0 := Subsingleton.elim _ _
    subst hr
    simp only [Function.update_same]
    by_cases hc : c = ⟨m, hmd⟩
    · subst hc
      simp
    · have hne : c.val ≠ m := fun h => hc (Fin.ext h)
      rw [Function.update_noteq hc]
      by_cases hlt : c.val < m
      · have : c.val < m + 1 := by omega
        simp [hlt, this]
      · have : ¬ c.val < m + 1 := by omega
        simp [hlt, this]

/-- The second loop nest of `evaluateJacobian`: after `n` passes of the outer loop the
Jacobian `i + 1` is the unit row `i` for every `i < n`, and Jacobian 0 is untouched. -/
theorem evaluateJacobian_outer (dim : Nat) (s1 : List (JacobianType dim))
    (h1 : s1.length = dim + 1) :
    ∀ n, n ≤ dim → ∃ s,
      forLoop n (fun i out =>
        forLoop dim (fun j out =>
          StdVector.modify out (i + 1) (fun J => J.modify 0 (fun row =>
            row.write j (if i = j then 1 else 0)))) out) s1 = some s ∧
      s.length = dim + 1 ∧ s[0]? = s1[0]? ∧
      ∀ i, i < n → s[i + 1]? = some (fun _ c => if i = c.val then 1 else 0) := by
  intro n
  induction n with
  | zero =>
    intro _
    exact ⟨s1, rfl, h1, rfl, fun i hi => absurd hi (Nat.not_lt_zero i)⟩
  | succ n ih =>
    intro hn
    obtain ⟨s, hs, hlen, hz, hrest⟩ := ih (by omega)
    obtain ⟨J, hJ⟩ := getElem?_of_lt s (n + 1) (by omega)
    have hrow := fillRow_loop dim (n + 1) (fun j => if n = j then 1 else 0) s J hJ dim
      (Nat.le_refl dim)
    refine ⟨s.set (n + 1) (fun r c => if c.val < dim then (if n = c.val then 1 else 0)
      else J r c), ?_, ?_, ?_, ?_⟩
    · rw [forLoop_succ, hs]
      exact hrow
    · simp [hlen]
    · rw [List.getElem?_set_ne (by omega)]
      exact hz
    · intro i hi
      by_cases hin : i = n
      · subst hin
        rw [List.getElem?_set_self (by omega)]
        congr 1
        funext _ c
        simp [c.isLt]
      · rw [List.getElem?_set_ne (by omega)]
        exact hrest i (by omega)

/-- The values `evaluateJacobian` leaves in `out`: the gradient of shape function 0 has
every entry `-1`, the gradient of shape function `i + 1` is the unit row `i`. -/
theorem evaluateJacobian_eq (dim : Nat) (inp : DomainType dim) (out : List (JacobianType dim))
    (fill : JacobianType dim) :
    evaluateJacobian dim inp out fill =
      some ((fun _ _ => -1) ::
        List.ofFn (fun i : Fin dim => (fun _ c => if i = c then 1 else 0 : JacobianType dim))) := by
  have hlen0 := StdVector.length_resize out (size dim) fill
  obtain ⟨a, ha⟩ := getElem?_of_lt (StdVector.resize out (size dim) fill) 0
    (by rw [hlen0]; simp [size])
  have hfirst := fillRow_loop dim 0 (fun _ => -1) _ a ha dim (Nat.le_refl dim)
  obtain ⟨s, hs, hlen, hz, hrest⟩ := evaluateJacobian_outer dim
    ((StdVector.resize out (size dim) fill).set 0
      (fun r c => if c.val < dim then (-1 : ℚ) else a r c))
    (by rw [List.length_set, hlen0]; rfl) dim (Nat.le_refl dim)
  unfold evaluateJacobian
  simp only [Option.bind_eq_bind, hfirst, Option.some_bind]
  rw [hs]
  congr 1
  apply List.ext_getElem?
  intro k
  cases k with
  | zero =>
    rw [hz, List.getElem?_set_self (by rw [hlen0]; simp [size])]
    simp only [List.getElem?_cons_zero]
    congr 1
    funext _ c
    simp [c.isLt]
  | succ k =>
    simp only [List.getElem?_cons_succ]
    by_cases hk : k < dim
    · rw [hrest k hk]
      simp only [List.getElem?_ofFn, List.ofFnNthVal, hk, dif_pos]
      congr 1
      funext _ c
      simp [Fin.ext_iff]
    · rw [List.getElem?_eq_none (by omega), List.getElem?_eq_none (by simp; omega)]

end P1LocalBasis

namespace P1LocalBasis

theorem sum_vertex (dim : Nat) (j : Fin (dim + 1)) :
    ∑ c : Fin dim, vertex dim j c = if j.val = 0 then 0 else 1 := by
  unfold vertex
  by_cases hj : j.val = 0
  · rw [if_pos hj]
    apply Finset.sum_eq_zero
    intro c _
    have : c.val + 1 ≠ j.val := by omega
    simp [this]
  · rw [if_neg hj]
    have hlt : j.val - 1 < dim := by have := j.isLt; omega
    rw [Finset.sum_eq_single (⟨j.val - 1, hlt⟩ : Fin dim)]
    · have : j.val - 1 + 1 = j.val := by omega
      simp [this]
    · intro c _ hc
      have : c.val + 1 ≠ j.val := by
        intro h
        apply hc
        apply Fin.ext
        simp only
        omega
      simp [this]
    · intro h
      exact absurd (Finset.mem_univ _) h

/-- C6: for every dimension `dim`, every corner `j` of the reference simplex (corner 0 the
origin, corner `j ≥ 1` the unit vector along coordinate `j - 1`) and every shape function
index `i` in `0..dim`, `evaluateFunction` at corner `j` returns, and the value of shape
function `i` there is 1 if `i = j` and 0 otherwise. -/
theorem evaluateFunction_vertex_kronecker (dim : Nat) (i j : Fin (dim + 1))
    (out : List RangeType) (fill : RangeType) :
    ∃ res, evaluateFunction dim (vertex dim j) out fill = some res ∧
      res.length = dim + 1 ∧
      res[i.val]? = some (fun _ => if i = j then 1 else 0) := by
  refine ⟨_, evaluateFunction_eq dim (vertex dim j) out fill, by simp, ?_⟩
  obtain ⟨iv, hi⟩ := i
  cases iv with
  | zero =>
    simp only [List.getElem?_cons_zero, sum_vertex]
    congr 1
    funext _
    by_cases hj : j.val = 0
    · simp [Fin.ext_iff, hj]
    · have hj2 : ¬ (0 : ℕ) = j.val := fun h => hj h.symm
      simp [Fin.ext_iff, hj, hj2]
  | succ k =>
    have hk : k < dim := by omega
    simp only [List.getElem?_cons_succ, List.getElem?_ofFn, List.ofFnNthVal, hk, dif_pos]
    congr 1
    funext _
    simp [vertex, Fin.ext_iff]

/-- C7: for every dimension `dim`, every point `x`, every displacement `h` and every shape
function index `i` in `0..dim`, the three evaluations return and, over the rationals,
`f_i (x + h) - f_i x` equals the sum over `j` of `J_i(x)[0][j] * h_j`; hence the difference
quotient of `evaluateFunction` along coordinate `j` equals the Jacobian entry `J_i(x)[0][j]`
for every non-zero step size `t`. -/
theorem evaluateJacobian_exact_derivative (dim : Nat) (x h : DomainType dim)
    (i : Fin (dim + 1)) (out : List RangeType) (fill : RangeType)
    (outJ : List (JacobianType dim)) (fillJ : JacobianType dim) :
    ∃ fx fxh J, evaluateFunction dim x out fill = some fx ∧
      evaluateJacobian dim x outJ fillJ = some J ∧
      evaluateFunction dim (x + h) out fill = some fxh ∧
      ∃ a b G, fx[i.val]? = some a ∧ fxh[i.val]? = some b ∧ J[i.val]? = some G ∧
        b 0 - a 0 = ∑ j : Fin dim, G 0 j * h j ∧
        ∀ (j : Fin dim) (t : ℚ), t ≠ 0 →
          ∃ fxt c, evaluateFunction dim (x + Pi.single j t) out fill = some fxt ∧
            fxt[i.val]? = some c ∧ (c 0 - a 0) / t = G 0 j := by
  refine ⟨_, _, _, evaluateFunction_eq dim x out fill, evaluateJacobian_eq dim x outJ fillJ,
    evaluateFunction_eq dim (x + h) out fill, ?_⟩
  obtain ⟨iv, hi⟩ := i
  cases iv with
  | zero =>
    refine ⟨fun _ => 1 - ∑ c : Fin dim, x c, fun _ => 1 - ∑ c : Fin dim, (x + h) c,
      fun _ _ => -1, by simp, by simp, by simp, ?_, ?_⟩
    · simp only [Pi.add_apply, Finset.sum_add_distrib, neg_mul, one_mul,
        Finset.sum_neg_distrib]
      ring
    · intro j t ht
      refine ⟨_, fun _ => 1 - ∑ c : Fin dim, (x c + (Pi.single j t : Fin dim → ℚ) c),
        evaluateFunction_eq dim (x + Pi.single j t) out fill, by simp, ?_⟩
      simp only [Pi.add_apply, Finset.sum_add_distrib, Finset.sum_pi_single', Finset.mem_univ,
        if_true]
      field_simp
  | succ k =>
    have hk : k < dim := by omega
    refine ⟨fun _ => x ⟨k, hk⟩, fun _ => x ⟨k, hk⟩ + h ⟨k, hk⟩,
      fun _ c => if (⟨k, hk⟩ : Fin dim) = c then 1 else 0, ?_, ?_, ?_, ?_, ?_⟩
    · simp [List.getElem?_ofFn, List.ofFnNthVal, hk]
    · simp [List.getElem?_ofFn, List.ofFnNthVal, hk]
    · simp [List.getElem?_ofFn, List.ofFnNthVal, hk]
    · simp
    · intro j t ht
      refine ⟨_, fun _ => x ⟨k, hk⟩ + (Pi.single j t : Fin dim → ℚ) ⟨k, hk⟩,
        evaluateFunction_eq dim (x + Pi.single j t) out fill, ?_, ?_⟩
      · simp [List.getElem?_ofFn, List.ofFnNthVal, hk]
      · by_cases hjk : (⟨k, hk⟩ : Fin dim) = j
        · subst hjk
          simp [ht]
        · have hjk2 : ¬ j = (⟨k, hk⟩ : Fin dim) := fun h => hjk h.symm
          simp [hjk, Pi.single_apply, hjk2]

/-- Witness for C7 in dimension 2, at shape function 1 and the step `t = 1` along
coordinate 0. -/
theorem evaluateJacobian_exact_derivative_witness :
    (1 : ℚ) ≠ 0 ∧
    ∃ fx J fxt a G c,
      evaluateFunction 2 ![1 / 3, 1 / 4] [] (fun _ => 0) = some fx ∧
      evaluateJacobian 2 ![1 / 3, 1 / 4] [] (fun _ _ => 0) = some J ∧
      evaluateFunction 2 (![1 / 3, 1 / 4] + Pi.single 0 1) [] (fun _ => 0) = some fxt ∧
      fx[1]? = some a ∧ J[1]? = some G ∧ fxt[1]? = some c ∧ (c 0 - a 0) / 1 = G 0 0 := by
  obtain ⟨fx, _, J, h1, h2, _, a, _, G, ha, _, hG, _, hq⟩ :=
    evaluateJacobian_exact_derivative 2 ![1 / 3, 1 / 4] 0 1 [] (fun _ => 0) []
      (fun _ _ => 0)
  obtain ⟨fxt, c, e1, e2, e3⟩ := hq 0 1 one_ne_zero
  exact ⟨one_ne_zero, fx, J, fxt, a, G, c, h1, h2, e1, ha, hG, e2, e3⟩

end P1LocalBasis

/-! ## Facts about the edge shape functions -/

namespace EdgeR02DLocalBasis

theorem resize_four {α : Type} (out : List α) (fill : α) :
    ∃ a b c d, StdVector.resize out 4 fill = [a, b, c, d] := by
  have h := StdVector.length_resize out 4 fill
  match hl : StdVector.resize out 4 fill, h with
  | [a, b, c, d], _ => exact ⟨a, b, c, d, rfl⟩

/-- The values `evaluateFunction` leaves in `out`. -/
theorem edge_evaluateFunction_eq (inp : DomainType) (out : List RangeType) (fill : RangeType) :
    evaluateFunction inp out fill =
      some [![1 - inp 1, 0, 0], ![inp 1, 0, 0], ![0, 1 - inp 0, 0], ![0, inp 0, 0]] := by
  obtain ⟨a, b, c, d, h⟩ := resize_four out fill
  unfold evaluateFunction
  simp only [h, StdVector.modify, FieldVector.read, FieldVector.write, FieldVector.assign,
    Option.bind_eq_bind, Option.some_bind, Option.map_some', List.getElem?_cons_zero,
    List.getElem?_cons_succ, List.set_cons_zero, List.set_cons_succ,
    show (0 : ℕ) < 2 from by decide, show (1 : ℕ) < 2 from by decide,
    show (0 : ℕ) < 3 from by decide, show (1 : ℕ) < 3 from by decide, dif_pos]
  congr 1
  refine congrArg₂ _ ?_ (congrArg₂ _ ?_ (congrArg₂ _ ?_ (congrArg₂ _ ?_ rfl))) <;>
    (funext i; fin_cases i <;> simp [Function.update] <;> rfl)

/-- The statement `out[2][1][0] = -1` of `evaluateJacobian` addresses row 1 of a Jacobian
that has the single row 0, so the call has no defined result. -/
theorem evaluateJacobian_eq_none (inp : DomainType) (out : List JacobianType)
    (fill : JacobianType) : evaluateJacobian inp out fill = none := by
  obtain ⟨a, b, c, d, h⟩ := resize_four out fill
  unfold evaluateJacobian
  simp only [h, StdVector.modify, FieldVector.modify, FieldVector.write, FieldVector.assign,
    Option.bind_eq_bind, Option.some_bind, Option.map_some', List.getElem?_cons_zero,
    List.getElem?_cons_succ, List.set_cons_zero, List.set_cons_succ,
    show (0 : ℕ) < 1 from by decide, show (1 : ℕ) < 2 from by decide,
    show ¬ (1 : ℕ) < 1 from by decide, dif_pos, dif_neg, not_false_eq_true,
    Option.map_none', Option.none_bind]

end EdgeR02DLocalBasis

/-! ## The length of the output vector -/

/-- C10: `P1LocalBasis::evaluateFunction` and `evaluateJacobian` (every `dim`) and
`EdgeR02DLocalBasis::evaluateFunction` return with exactly `size()` entries (`dim + 1`,
respectively 4) in the output vector, and the result is the same whatever the output vector
held before the call.  `EdgeR02DLocalBasis::evaluateJacobian` does not: for every input its
statement `out[2][1][0] = -1` addresses row 1 of a `JacobianType` that has one row, so the
call leaves no defined result. -/
theorem evaluate_leaves_size_entries :
    (∀ (dim : Nat) (inp : P1LocalBasis.DomainType dim), ∃ res,
      res.length = P1LocalBasis.size dim ∧
      ∀ out fill, P1LocalBasis.evaluateFunction dim inp out fill = some res) ∧
    (∀ (dim : Nat) (inp : P1LocalBasis.DomainType dim), ∃ res,
      res.length = P1LocalBasis.size dim ∧
      ∀ out fill, P1LocalBasis.evaluateJacobian dim inp out fill = some res) ∧
    (∀ inp : EdgeR02DLocalBasis.DomainType, ∃ res,
      res.length = EdgeR02DLocalBasis.size ∧
      ∀ out fill, EdgeR02DLocalBasis.evaluateFunction inp out fill = some res) ∧
    (∀ (inp : EdgeR02DLocalBasis.DomainType) out fill,
      EdgeR02DLocalBasis.evaluateJacobian inp out fill = none) ∧
    EdgeR02DLocalBasis.evaluateJacobian ![0, 0] [] (fun _ _ => 0) = none := by
  refine ⟨?_, ?_, ?_, EdgeR02DLocalBasis.evaluateJacobian_eq_none,
    EdgeR02DLocalBasis.evaluateJacobian_eq_none _ _ _⟩
  · intro dim inp
    exact ⟨_, by simp [P1LocalBasis.size], P1LocalBasis.evaluateFunction_eq dim inp⟩
  · intro dim inp
    exact ⟨_, by simp [P1LocalBasis.size], P1LocalBasis.evaluateJacobian_eq dim inp⟩
  · intro inp
    exact ⟨_, by simp [EdgeR02DLocalBasis.size], EdgeR02DLocalBasis.edge_evaluateFunction_eq inp⟩

/-! ## Facts about the Raviart-Thomas test -/

theorem forLoop_invariant {σ : Type} (P : σ → Prop) (body : Nat → σ → Option σ)
    (hbody : ∀ i s t, P s → body i s = some t → P t) :
    ∀ n s t, P s → forLoop n body s = some t → P t := by
  intro n
  induction n with
  | zero =>
    intro s t hs h
    simp only [forLoop, Option.some.injEq] at h
    exact h ▸ hs
  | succ n ih =>
    intro s t hs h
    rw [forLoop_succ] at h
    cases hmid : forLoop n body s with
    | none => rw [hmid] at h; cases h
    | some m =>
      rw [hmid] at h
      exact hbody n m t (ih s m hs hmid) h

namespace RaviartThomasTest

theorem testOrder_ret (interpolate : Nat → LFEMatrix) (o : Nat) (st t : TestState)
    (hst : st.ret = true) (h : testOrder interpolate o st = some t) : t.ret = true := by
  unfold testOrder at h
  simp only [Option.bind_eq_bind] at h
  cases hm : forLoop (interpolate o).rows (fun i matrix => matrix.sub i i 1) (interpolate o) with
  | none => rw [hm] at h; cases h
  | some matrix =>
    rw [hm] at h
    simp only [Option.some_bind] at h
    refine forLoop_invariant (fun s : TestState => s.ret = true) _ ?_ _ _ _ ?_ h
    · intro i s1 s2 hs1 hrow
      refine forLoop_invariant (fun s : TestState => s.ret = true) _ ?_ _ _ _ hs1 hrow
      intro j s3 s4 hs3 hcell
      cases hv : matrix.read i j with
      | none => simp [hv] at hcell
      | some v =>
        simp only [hv, Option.some_bind] at hcell
        split at hcell
        · cases hcell; exact hs3
        · cases hcell; exact hs3
    · exact hst

theorem test_ret (interpolate : Nat → LFEMatrix) (order : Nat) (r : Bool × List Line)
    (h : test interpolate order = some r) : r.1 = true := by
  unfold test at h
  simp only [Option.bind_eq_bind] at h
  cases hl : forLoop (order + 1) (testOrder interpolate) ⟨true, []⟩ with
  | none => rw [hl] at h; cases h
  | some st =>
    rw [hl] at h
    have hret : st.ret = true :=
      forLoop_invariant (fun s : TestState => s.ret = true) _
        (fun o s t hs ht => testOrder_ret interpolate o s t hs ht) _ _ _ rfl hl
    simp only [Option.some_bind, hret, Bool.not_true, Bool.false_eq_true, if_false,
      Option.some.injEq] at h
    rw [← h]

theorem test_failing_input :
    test (fun _ => ⟨1, 1, fun _ _ => 2⟩) 0 =
      some (true, [Line.testing 0, Line.nonZeroEntry 0 0 1]) := by
  simp [test, testOrder, forLoop, LFEMatrix.sub, LFEMatrix.read]
  norm_num

/-- C8: the claim asks that a non-zero entry of `interpolate(basis)` minus the identity makes
`test` return false and `main` exit with a non-zero status.  The code never assigns `ret`
after `bool ret = true`: whenever `test` returns, it returns true, and whenever `main`
returns (with or without `TOPOLOGY`), the exit status is 0.  At the 1 × 1 matrix with entry
2 and order 0 the test prints the non-zero entry `(0,0) = 1`, returns true, and `main`
exits with status 0. -/
theorem test_never_reports_failure :
    (∀ (interpolate : Nat → LFEMatrix) (order : Nat) (r : Bool × List Line),
      test interpolate order = some r → r.1 = true) ∧
    (∀ (p : Option Nat) (interpolate : Nat → Nat → LFEMatrix) (code : Nat),
      main p interpolate = some code → code = 0) ∧
    (∀ (p : Option Nat) (interpolate : Nat → LFEMatrix) (code : Nat),
      mainTopology p interpolate = some code → code = 0) ∧
    test (fun _ => ⟨1, 1, fun _ _ => 2⟩) 0 =
      some (true, [Line.testing 0, Line.nonZeroEntry 0 0 1]) ∧
    main (some 0) (fun _ _ => ⟨1, 1, fun _ _ => 2⟩) = some 0 ∧
    mainTopology (some 0) (fun _ => ⟨1, 1, fun _ _ => 2⟩) = some 0 := by
  refine ⟨test_ret, ?_, ?_, test_failing_input, ?_, ?_⟩
  · intro p interpolate code h
    unfold main at h
    simp only [Option.bind_eq_bind] at h
    generalize p.getD 5 = order at h
    cases h1 : test (interpolate 1) order with
    | none => rw [h1] at h; cases h
    | some t1 =>
      cases h2 : test (interpolate 2) order with
      | none => rw [h1, h2] at h; cases h
      | some t2 =>
        cases h3 : test (interpolate 3) order with
        | none => rw [h1, h2, h3] at h; cases h
        | some t3 =>
          cases h4 : test (interpolate 4) order with
          | none => rw [h1, h2, h3, h4] at h; cases h
          | some t4 =>
            rw [h1, h2, h3, h4] at h
            simp only [Option.some_bind, test_ret _ _ _ h1, test_ret _ _ _ h2,
              test_ret _ _ _ h3, test_ret _ _ _ h4, Bool.and_self, if_true,
              Option.some.injEq] at h
            exact h.symm
  · intro p interpolate code h
    unfold mainTopology at h
    simp only [Option.bind_eq_bind] at h
    generalize p.getD 5 = order at h
    cases h1 : test interpolate order with
    | none => rw [h1] at h; cases h
    | some t1 =>
      rw [h1] at h
      simp only [Option.some_bind, test_ret _ _ _ h1, if_true, Option.some.injEq] at h
      exact h.symm
  · simp [main, test_failing_input]
  · simp [mainTopology, test_failing_input]

end RaviartThomasTest

/-! ## Facts about the component writes -/

namespace EdgeR02DLocalBasis

theorem evaluateJacobian_eq_rows (inp : DomainType) (out : List JacobianType)
    (fill : JacobianType) :
    evaluateJacobian inp out fill = evaluateJacobianRows 1 inp out fill := by
  simp only [evaluateJacobian, evaluateJacobianRows, jacobianWrites, runJacobianWrites,
    Option.bind_eq_bind, Option.bind_some]

theorem evaluateFunction_eq_writes (inp : DomainType) (out : List RangeType)
    (fill : RangeType) :
    evaluateFunction inp out fill =
      runFunctionWrites (functionWrites inp) (StdVector.resize out 4 fill) := by
  have h0 : FieldVector.read inp 0 = some (inp 0) := rfl
  have h1 : FieldVector.read inp 1 = some (inp 1) := rfl
  simp only [evaluateFunction, functionWrites, runFunctionWrites, h0, h1,
    Option.bind_eq_bind, Option.bind_some, Option.some_bind]

end EdgeR02DLocalBasis

theorem getElem?_fin {α : Type} (l : List α) (n : Nat) (d : α) (hl : l.length = n)
    (i : Fin n) : l[i.val]? = some (l.getD i.val d) := by
  have hlt : i.val < l.length := hl ▸ i.isLt
  rw [List.getD_eq_getElem?_getD, List.getElem?_eq_getElem hlt]
  rfl

/-! ## The refined piecewise constant element -/

/-- C11: constructing `RefinedP0LocalFiniteElement<D,R,dim>` fails with `NotImplemented`
exactly for the template arguments `dim` other than 2 (among them 1, 0 and every `dim > 2`);
for `dim = 2` the construction succeeds and `type()` of the constructed element is the
triangle. -/
theorem refinedP0_new_fails_iff_not_two (dim : Int) :
    (RefinedP0LocalFiniteElement.new dim = .error .NotImplemented ↔ dim ≠ 2) ∧
    RefinedP0LocalFiniteElement.new 1 = .error .NotImplemented ∧
    RefinedP0LocalFiniteElement.new 0 = .error .NotImplemented ∧
    (2 < dim → RefinedP0LocalFiniteElement.new dim = .error .NotImplemented) ∧
    ∃ fe, RefinedP0LocalFiniteElement.new 2 = .ok fe ∧ fe.type = GeometryTypes.triangle := by
  refine ⟨?_, rfl, rfl, ?_, ⟨_, rfl, rfl⟩⟩
  · unfold RefinedP0LocalFiniteElement.new
    by_cases h : dim = 2
    · simp [h]
    · simp [h]
  · intro h
    have hne : ¬ dim = 2 := by omega
    simp [RefinedP0LocalFiniteElement.new, hne]

/-- Witness for C11 at `dim = 3`. -/
theorem refinedP0_new_fails_iff_not_two_witness :
    (2 : Int) < 3 ∧ RefinedP0LocalFiniteElement.new 3 = .error .NotImplemented :=
  ⟨by decide, (refinedP0_new_fails_iff_not_two 3).2.2.2.1 (by decide)⟩

/-! ## The edge shape functions: declared types, derivatives, edge values -/

namespace EdgeR02DLocalBasis

/-- The values the body of `evaluateJacobian` leaves in `out` when the Jacobians have two
rows. -/
theorem evaluateJacobianRows_two_eq (inp : DomainType)
    (out : List (FieldVector (FieldVector ℚ 2) 2)) (fill : FieldVector (FieldVector ℚ 2) 2) :
    evaluateJacobianRows 2 inp out fill =
      some [![![0, -1], ![0, 0]], ![![0, 1], ![0, 0]], ![![0, 0], ![-1, 0]],
        ![![0, 0], ![1, 0]]] := by
  obtain ⟨a, b, c, d, h⟩ := resize_four out fill
  unfold evaluateJacobianRows
  simp only [h, jacobianWrites, runJacobianWrites, StdVector.modify, FieldVector.modify,
    FieldVector.write, FieldVector.assign,
    Option.bind_eq_bind, Option.some_bind, Option.map_some', List.getElem?_cons_zero,
    List.getElem?_cons_succ, List.set_cons_zero, List.set_cons_succ,
    show (0 : ℕ) < 2 from by decide, show (1 : ℕ) < 2 from by decide, dif_pos]
  congr 1
  refine congrArg₂ _ ?_ (congrArg₂ _ ?_ (congrArg₂ _ ?_ (congrArg₂ _ ?_ rfl))) <;>
    (funext i j; fin_cases i <;> fin_cases j <;> simp [Function.update] <;> rfl)

end EdgeR02DLocalBasis

open EdgeR02DLocalBasis in
/-- C12: every component that `evaluateFunction` writes has an index below the 3 components
of `Traits::RangeType`, and every entry `out[k][r][c]` that `evaluateJacobian` writes has a
column index `c` below 2; the row index `r` is below the single row of
`Traits::JacobianType` for the shape functions `k = 0, 1` only.  For `k = 2` and `k = 3` the
code writes `out[k][1][0]`, in row 1, which the declared type does not have, and so the
call has no defined result. -/
theorem edge_jacobian_writes_outside_declared_rows :
    (∀ inp out fill, evaluateFunction inp out fill =
      runFunctionWrites (functionWrites inp) (StdVector.resize out 4 fill)) ∧
    (∀ inp, ∀ w ∈ functionWrites inp, w.1 < 4 ∧ w.2.1 < 3) ∧
    (∀ inp out fill, evaluateJacobian inp out fill =
      runJacobianWrites 1 jacobianWrites (StdVector.resize out 4 fill)) ∧
    (∀ w ∈ jacobianWrites, w.1 < 4 ∧ w.2.2.1 < 2) ∧
    (∀ w ∈ jacobianWrites, w.1 < 2 → w.2.1 < 1) ∧
    (∀ w ∈ jacobianWrites, 2 ≤ w.1 → w.2.1 = 1) ∧
    (2, 1, 0, -1) ∈ jacobianWrites ∧ (3, 1, 0, 1) ∈ jacobianWrites ∧
    ¬ (∀ w ∈ jacobianWrites, w.2.1 < 1) ∧
    evaluateJacobian ![0, 0] [] (fun _ _ => 0) = none := by
  refine ⟨evaluateFunction_eq_writes, ?_, evaluateJacobian_eq_rows, ?_, ?_, ?_, ?_, ?_, ?_,
    evaluateJacobian_eq_none _ _ _⟩
  · intro inp w hw
    simp only [functionWrites, List.mem_cons, List.mem_singleton, List.not_mem_nil,
      or_false] at hw
    rcases hw with rfl | rfl | rfl | rfl <;> exact ⟨by norm_num, by norm_num⟩
  · intro w hw
    simp only [jacobianWrites, List.mem_cons, List.mem_singleton, List.not_mem_nil,
      or_false] at hw
    rcases hw with rfl | rfl | rfl | rfl <;> exact ⟨by decide, by decide⟩
  · intro w hw hk
    simp only [jacobianWrites, List.mem_cons, List.mem_singleton, List.not_mem_nil,
      or_false] at hw
    rcases hw with rfl | rfl | rfl | rfl
    · decide
    · decide
    · exact absurd hk (by decide)
    · exact absurd hk (by decide)
  · intro w hw hk
    simp only [jacobianWrites, List.mem_cons, List.mem_singleton, List.not_mem_nil,
      or_false] at hw
    rcases hw with rfl | rfl | rfl | rfl
    · exact absurd hk (by decide)
    · exact absurd hk (by decide)
    · rfl
    · rfl
  · simp [jacobianWrites]
  · simp [jacobianWrites]
  · intro h
    have := h (2, 1, 0, -1) (by simp [jacobianWrites])
    exact absurd this (by decide)

open EdgeR02DLocalBasis in
/-- C13: the entries that `evaluateJacobian` writes are the exact derivative of
`evaluateFunction` when the Jacobians have two rows: for every point `x`, displacement `h`,
shape function `i` in `0..3` and range component `c` in `{0, 1}`,
`f_i(x + h)[c] - f_i(x)[c] = J_i(x)[c][0] * h_0 + J_i(x)[c][1] * h_1`.  With the one-row
`Traits::JacobianType` that the source declares, `evaluateJacobian` returns no Jacobian at
all, for every input. -/
theorem edge_jacobian_exact_for_two_rows :
    (∀ (x h : DomainType) (i : Fin 4) (r : Fin 2) (out : List RangeType) (fill : RangeType)
      (outJ : List (FieldVector (FieldVector ℚ 2) 2)) (fillJ : FieldVector (FieldVector ℚ 2) 2),
      ∃ fx fxh J a b G,
        evaluateFunction x out fill = some fx ∧
        evaluateFunction (x + h) out fill = some fxh ∧
        evaluateJacobianRows 2 x outJ fillJ = some J ∧
        fx[i.val]? = some a ∧ fxh[i.val]? = some b ∧ J[i.val]? = some G ∧
        b (Fin.castSucc r) - a (Fin.castSucc r) = G r 0 * h 0 + G r 1 * h 1) ∧
    (∀ (x : DomainType) (outJ : List JacobianType) (fillJ : JacobianType),
      evaluateJacobian x outJ fillJ = evaluateJacobianRows 1 x outJ fillJ ∧
      evaluateJacobian x outJ fillJ = none) ∧
    evaluateJacobian ![0, 0] [] (fun _ _ => 0) = none := by
  refine ⟨?_, fun x outJ fillJ => ⟨evaluateJacobian_eq_rows x outJ fillJ,
    evaluateJacobian_eq_none x outJ fillJ⟩, evaluateJacobian_eq_none _ _ _⟩
  intro x h i r out fill outJ fillJ
  refine ⟨_, _, _, _, _, _, edge_evaluateFunction_eq x out fill,
    edge_evaluateFunction_eq (x + h) out fill, evaluateJacobianRows_two_eq x outJ fillJ,
    getElem?_fin _ 4 (fun _ => 0) (by rfl) i, getElem?_fin _ 4 (fun _ => 0) (by rfl) i,
    getElem?_fin _ 4 (fun _ _ => 0) (by rfl) i, ?_⟩
  have h3 : ((3 : Fin 4) : ℕ) = 3 := rfl
  fin_cases i <;> fin_cases r <;> simp [h3]

open EdgeR02DLocalBasis in
/-- C14: for all `i`, `k` in `0..3` and every point of the edge `k` of the reference square
(`y = 0`, `y = 1`, `x = 0`, `x = 1` in this order), `evaluateFunction` returns and the
component of shape function `i` along the edge `k` is 1 if `i = k` and 0 otherwise. -/
theorem edge_shape_functions_dual_to_edges (i k : Fin 4) (t : ℚ) (out : List RangeType)
    (fill : RangeType) :
    ∃ res v, evaluateFunction (edgePoint k t) out fill = some res ∧
      res.length = 4 ∧ res[i.val]? = some v ∧
      v (tangentComponent k) = if i = k then 1 else 0 := by
  refine ⟨_, _, edge_evaluateFunction_eq (edgePoint k t) out fill, rfl,
    getElem?_fin _ 4 (fun _ => 0) (by rfl) i, ?_⟩
  have h3 : ((3 : Fin 4) : ℕ) = 3 := rfl
  fin_cases i <;> fin_cases k <;> simp [edgePoint, tangentComponent, h3]

/-! ## Partition of unity -/

/-- C15: for every dimension `dim` and every point `x`, inside or outside the reference
simplex, `evaluateFunction` returns `dim + 1` values and, over the rationals, they sum
to 1. -/
theorem P1LocalBasis.evaluateFunction_sum_eq_one (dim : Nat) (x : P1LocalBasis.DomainType dim)
    (out : List P1LocalBasis.RangeType) (fill : P1LocalBasis.RangeType) :
    ∃ res, P1LocalBasis.evaluateFunction dim x out fill = some res ∧
      res.length = dim + 1 ∧ (res.map (fun v => v 0)).sum = 1 := by
  refine ⟨_, P1LocalBasis.evaluateFunction_eq dim x out fill, by simp, ?_⟩
  simp only [List.map_cons, List.sum_cons, List.map_ofFn, List.sum_ofFn, Function.comp_def]
  ring

/-! ## The geometry types of dimension 3 -/

open LagrangeFiniteElementCache LocalGeometryTypeIndex in
theorem get_ok_iff_present (dim order : Nat) (gt : GeometryType) (hdim : gt.dim = dim)
    (hwf : gt.WellFormed) (cache : LagrangeFiniteElementCache dim order)
    (hnew : LagrangeFiniteElementCache.new dim order = some cache) :
    ((∃ fe, cache.get gt = .ok fe) ↔
      ∃ p ∈ ImplementedLagrangeFiniteElements dim order, p.1.same gt = true) ∧
    ((¬ ∃ p ∈ ImplementedLagrangeFiniteElements dim order, p.1.same gt = true) →
      cache.get gt = .error .NotImplemented) := by
  obtain ⟨cache2, hnew2, hget⟩ := get_spec dim order
  have hc : cache = cache2 := by
    rw [hnew] at hnew2
    exact Option.some.inj hnew2
  subst hc
  have hlt : index gt < size dim := by
    have := index_lt_size gt hwf
    rwa [hdim] at this
  rw [hget gt]
  simp only [hlt, if_true]
  cases hs : slotAfter (ImplementedLagrangeFiniteElements dim order) (index gt) none with
  | none =>
    have hno := ((slotAfter_eq_none_iff _ _ _).mp hs).2
    have habs : ¬ ∃ p ∈ ImplementedLagrangeFiniteElements dim order, p.1.same gt = true := by
      rintro ⟨p, hp, hsame⟩
      exact hno p hp ((registry_index_eq_iff_same dim order gt hdim hwf p hp).mpr hsame)
    refine ⟨⟨?_, fun h => absurd h habs⟩, fun _ => rfl⟩
    rintro ⟨fe, hfe⟩
    cases hfe
  | some fe =>
    have hex : ∃ p ∈ ImplementedLagrangeFiniteElements dim order, p.1.same gt = true := by
      rcases slotAfter_eq_some _ _ _ _ hs with h | ⟨q, hq, hqk, _⟩
      · cases h
      · exact ⟨q, hq, (registry_index_eq_iff_same dim order gt hdim hwf q hq).mp hqk⟩
    exact ⟨⟨fun _ => hex, fun _ => ⟨fe, rfl⟩⟩, fun h => absurd hex h⟩

theorem registry_dim_three_low (order : Nat) (h : order ≤ 2) :
    (ImplementedLagrangeFiniteElements 3 order).map Prod.fst =
      [GeometryTypes.tetrahedron, GeometryTypes.hexahedron, GeometryTypes.prism,
        GeometryTypes.pyramid] := by
  have h3 : order = 0 ∨ order = 1 ∨ order = 2 := by omega
  rcases h3 with rfl | rfl | rfl <;> rfl

theorem registry_dim_three_high (order : Nat) (h : 3 ≤ order) :
    (ImplementedLagrangeFiniteElements 3 order).map Prod.fst =
      [GeometryTypes.tetrahedron, GeometryTypes.hexahedron] := by
  unfold ImplementedLagrangeFiniteElements
  split
  · omega
  · omega
  · omega
  · omega
  · rfl

theorem exists_registry_same_iff (dim order : Nat) (gt : GeometryType) :
    (∃ p ∈ ImplementedLagrangeFiniteElements dim order, p.1.same gt = true) ↔
      ∃ g ∈ (ImplementedLagrangeFiniteElements dim order).map Prod.fst, g.same gt = true := by
  constructor
  · rintro ⟨p, hp, hs⟩
    exact ⟨p.1, List.mem_map.mpr ⟨p, hp, rfl⟩, hs⟩
  · rintro ⟨g, hg, hs⟩
    obtain ⟨p, hp, rfl⟩ := List.mem_map.mp hg
    exact ⟨p, hp, hs⟩

open LagrangeFiniteElementCache in
/-- C16: in dimension 3, for every order the constructor succeeds and, among the geometry
types of dimension 3, `get` succeeds exactly for the tetrahedron, the hexahedron, the prism
and the pyramid when `order ≤ 2`, and exactly for the tetrahedron and the hexahedron when
`order ≥ 3`; for `order ≥ 3` `get` of the prism and of the pyramid fail with
`NotImplemented`, and `get` of `GeometryTypes::none(3)` fails with `NotImplemented` for every
order, 0 included. -/
theorem get_dim_three_supported (order : Nat) :
    ∃ cache : LagrangeFiniteElementCache 3 order,
      LagrangeFiniteElementCache.new 3 order = some cache ∧
      (∀ gt : GeometryType, gt.dim = 3 → gt.WellFormed →
        (order ≤ 2 →
          ((∃ fe, cache.get gt = .ok fe) ↔
            (GeometryTypes.tetrahedron.same gt = true ∨ GeometryTypes.hexahedron.same gt = true ∨
              GeometryTypes.prism.same gt = true ∨ GeometryTypes.pyramid.same gt = true))) ∧
        (3 ≤ order →
          ((∃ fe, cache.get gt = .ok fe) ↔
            (GeometryTypes.tetrahedron.same gt = true ∨
              GeometryTypes.hexahedron.same gt = true)))) ∧
      (3 ≤ order → cache.get GeometryTypes.prism = .error .NotImplemented ∧
        cache.get GeometryTypes.pyramid = .error .NotImplemented) ∧
      cache.get (GeometryTypes.none 3) = .error .NotImplemented := by
  obtain ⟨cache, hnew, _⟩ := get_spec 3 order
  refine ⟨cache, hnew, ?_, ?_, ?_⟩
  · intro gt hdim hwf
    have hiff := (get_ok_iff_present 3 order gt hdim hwf cache hnew).1
    rw [exists_registry_same_iff] at hiff
    constructor
    · intro ho
      rw [hiff, registry_dim_three_low order ho]
      simp
    · intro ho
      rw [hiff, registry_dim_three_high order ho]
      simp
  · intro ho
    constructor
    · apply (get_ok_iff_present 3 order GeometryTypes.prism rfl (by decide) cache hnew).2
      rw [exists_registry_same_iff, registry_dim_three_high order ho]
      decide
    · apply (get_ok_iff_present 3 order GeometryTypes.pyramid rfl (by decide) cache hnew).2
      rw [exists_registry_same_iff, registry_dim_three_high order ho]
      decide
  · apply (get_ok_iff_present 3 order (GeometryTypes.none 3) rfl (by decide) cache hnew).2
    rw [exists_registry_same_iff]
    by_cases ho : order ≤ 2
    · rw [registry_dim_three_low order ho]
      decide
    · rw [registry_dim_three_high order (by omega)]
      decide

open LagrangeFiniteElementCache in
/-- Witness for C16 at order 1 and the prism, and at order 3. -/
theorem get_dim_three_supported_witness :
    GeometryTypes.prism.dim = 3 ∧ GeometryTypes.prism.WellFormed ∧ 1 ≤ 2 ∧ 3 ≤ 3 ∧
    (∃ cache : LagrangeFiniteElementCache 3 1,
      LagrangeFiniteElementCache.new 3 1 = some cache ∧
      ∃ fe, cache.get GeometryTypes.prism = .ok fe) ∧
    (∃ cache : LagrangeFiniteElementCache 3 3,
      LagrangeFiniteElementCache.new 3 3 = some cache ∧
      cache.get GeometryTypes.prism = .error .NotImplemented) := by
  refine ⟨rfl, by decide, by decide, by decide, ?_, ?_⟩
  · obtain ⟨cache, hnew, hsupp, _, _⟩ := get_dim_three_supported 1
    exact ⟨cache, hnew,
      ((hsupp GeometryTypes.prism rfl (by decide)).1 (by decide)).mpr (by decide)⟩
  · obtain ⟨cache, hnew, _, hfail, _⟩ := get_dim_three_supported 3
    exact ⟨cache, hnew, (hfail (by decide)).1⟩

/-! ## The order of the deduplicated types -/

theorem firstOccurrences_of_nodup {α : Type} [DecidableEq α] (ts : List α) (h : ts.Nodup) :
    Impl.firstOccurrences ts = ts := by
  induction ts with
  | nil => rfl
  | cons t ts ih =>
    obtain ⟨hnot, hnd⟩ := List.nodup_cons.mp h
    simp only [Impl.firstOccurrences, ih hnd]
    congr 1
    rw [List.filter_eq_self]
    intro u hu
    simp only [decide_eq_true_eq]
    rintro rfl
    exact hnot hu

theorem UniqueTypesHelper_eq {α : Type} [DecidableEq α] (ts : List α) :
    ∀ processed : List α,
      Impl.UniqueTypesHelper ts processed =
        ((Impl.firstOccurrences ts).filter (fun u => decide (u ∉ processed))).reverse
          ++ processed := by
  induction ts with
  | nil => intro processed; simp [Impl.UniqueTypesHelper, Impl.firstOccurrences]
  | cons t ts ih =>
    intro processed
    unfold Impl.UniqueTypesHelper
    by_cases hmem : t ∈ processed
    · have hany : processed.any (fun p => decide (t = p)) = true := by
        simp only [List.any_eq_true, decide_eq_true_eq]
        exact ⟨t, hmem, rfl⟩
      rw [if_pos hany, ih]
      congr 2
      simp only [Impl.firstOccurrences, List.filter_cons, hmem, not_true_eq_false,
        decide_False, Bool.false_eq_true, if_false, List.filter_filter]
      apply List.filter_congr
      intro u _
      by_cases hu : u ∈ processed
      · simp [hu]
      · have hne : u ≠ t := fun h => hu (h ▸ hmem)
        simp [hu, hne]
    · have hany : ¬ processed.any (fun p => decide (t = p)) = true := by
        simp only [List.any_eq_true, decide_eq_true_eq]
        rintro ⟨p, hp, rfl⟩
        exact hmem hp
      rw [if_neg hany, ih]
      simp only [Impl.firstOccurrences, List.filter_cons, hmem, not_false_eq_true,
        decide_True, if_true, List.reverse_cons, List.append_assoc, List.singleton_append,
        List.filter_filter]
      congr 2
      apply List.filter_congr
      intro u _
      by_cases hu : u ∈ processed
      · simp [hu]
      · by_cases hne : u = t
        · simp [hne]
        · simp [hu, hne]

/-- C17: for every list of types `ts`, the list that `UniqueTypes_t` hands to `Target` is
the list of the distinct types of `ts` in the reverse order of their first occurrence, so
the first type of `ts` is the last type of the result; on a duplicate-free list
`UniqueTypes_t` reverses it, and applying it twice to a duplicate-free list gives the list
back. -/
theorem UniqueTypes_t_reverse_first_occurrences (α : Type) [DecidableEq α] (ts : List α) :
    Impl.UniqueTypes_t ts = (Impl.firstOccurrences ts).reverse ∧
    (∀ t rest, ts = t :: rest → (Impl.UniqueTypes_t ts).getLast? = some t) ∧
    (ts.Nodup → Impl.UniqueTypes_t ts = ts.reverse) ∧
    (ts.Nodup → Impl.UniqueTypes_t (Impl.UniqueTypes_t ts) = ts) := by
  have hmain : ∀ l : List α, Impl.UniqueTypes_t l = (Impl.firstOccurrences l).reverse := by
    intro l
    simp [Impl.UniqueTypes_t, UniqueTypesHelper_eq]
  refine ⟨hmain ts, ?_, ?_, ?_⟩
  · intro t rest hts
    rw [hmain, hts]
    simp [Impl.firstOccurrences]
  · intro hnd
    rw [hmain, firstOccurrences_of_nodup ts hnd]
  · intro hnd
    rw [hmain ts, firstOccurrences_of_nodup ts hnd, hmain,
      firstOccurrences_of_nodup _ (List.nodup_reverse.mpr hnd), List.reverse_reverse]

/-- Witness for C17 on the duplicate-free list of the implementation types of the registry
of the configuration `(3, 1)`. -/
theorem UniqueTypes_t_reverse_first_occurrences_witness :
    [LFEType.Pk 3 1, LFEType.Qk 3 1, LFEType.PrismP1, LFEType.PyramidP1].Nodup ∧
    Impl.UniqueTypes_t [LFEType.Pk 3 1, LFEType.Qk 3 1, LFEType.PrismP1, LFEType.PyramidP1] =
      [LFEType.Pk 3 1, LFEType.Qk 3 1, LFEType.PrismP1, LFEType.PyramidP1].reverse ∧
    Impl.UniqueTypes_t (Impl.UniqueTypes_t
      [LFEType.Pk 3 1, LFEType.Qk 3 1, LFEType.PrismP1, LFEType.PyramidP1]) =
      [LFEType.Pk 3 1, LFEType.Qk 3 1, LFEType.PrismP1, LFEType.PyramidP1] ∧
    (Impl.UniqueTypes_t
      [LFEType.Pk 3 1, LFEType.Qk 3 1, LFEType.PrismP1, LFEType.PyramidP1]).getLast? =
      some (LFEType.Pk 3 1) :=
  ⟨by decide,
    (UniqueTypes_t_reverse_first_occurrences LFEType _).2.2.1 (by decide),
    (UniqueTypes_t_reverse_first_occurrences LFEType _).2.2.2 (by decide),
    (UniqueTypes_t_reverse_first_occurrences LFEType _).2.1 _ _ rfl⟩

end Dune
